import Mathlib

/-!
# Moran clonal-evolution simulator (`moran_model.cpp`)

A shallow embedding of the Gillespie main loop of `moran_model.cpp` and
proofs of its invariants.

Modelling conventions.
* `int` / `long long` values are `Int`; the `double` quantities (time,
  fitness, propensities, uniform draws) are exact rationals `ℚ`, so every
  statement below is about exact arithmetic; where a statement depends on the
  underflow of `std::pow` on doubles, that is modelled apart (`powDouble`).
* The random number generator is replaced by the values it returns: one
  `Draws` record per loop iteration holds the value of every draw the
  iteration may consume.
* A clone index variable initialised to `-1` is an `Option Nat`
  (`none` is `-1`).
-/

namespace Moran

/-! ## Data model -/

/-- Data of one cell clone (`struct Clone`): `k` driver mutations, `l`
passenger mutations, `n` cells. -/
structure Clone where
  k : Int
  l : Int
  n : Int
deriving DecidableEq, Repr

/-- The command-line value `model_type`, validated to be `"A"` or `"B"`. -/
inductive ModelType where
  | A
  | B
deriving DecidableEq, Repr

/-- The parsed command-line parameters of a run. -/
structure Params where
  model_type : ModelType
  tmax : ℚ
  Ntot : Int
  s : ℚ
  d : ℚ
  L : ℚ
  p : ℚ

/-- The simulation state variables of `main`. -/
structure SimState where
  t : ℚ
  clones : List Clone
  cumulative_drivers : Int
  cumulative_passengers : Int
deriving DecidableEq

/-- One line of the output file after the header. -/
structure Row where
  time : ℚ
  active_clones_count : Nat
  cumulative_drivers : Int
  cumulative_passengers : Int
deriving DecidableEq

/-- The values returned by the random draws of one loop iteration:
`dt` by `exponential_dist`, `u_class`, `u_repro`, `u_death`, `u_type` by
`unif_dist` (for `r1`, `r_repro`, `r_death` and the driver/passenger test),
and `random_cell_pos` by `cell_dist` (regime-B death or mutation parent; an
iteration draws at most one of the two). -/
structure Draws where
  dt : ℚ
  u_class : ℚ
  u_repro : ℚ
  u_death : ℚ
  random_cell_pos : Int
  u_type : ℚ

/-- The ranges the library distributions guarantee for the draws:
`exponential_distribution` returns a non-negative value, `unif_dist` a value
of `[0, 1)` and `cell_dist(1, Ntot)` an integer of `[1, Ntot]`. -/
def ValidDraws (P : Params) (dr : Draws) : Prop :=
  0 ≤ dr.dt ∧ (0 ≤ dr.u_class ∧ dr.u_class < 1) ∧ (0 ≤ dr.u_repro ∧ dr.u_repro < 1) ∧
    (0 ≤ dr.u_death ∧ dr.u_death < 1) ∧
    (1 ≤ dr.random_cell_pos ∧ dr.random_cell_pos ≤ P.Ntot) ∧
    (0 ≤ dr.u_type ∧ dr.u_type < 1)

/-! ## Propensities -/

/-- The fitness `std::pow(1.0 + s, k) * std::pow(1.0 - d, l)` of a clone. -/
def fitness (s d : ℚ) (c : Clone) : ℚ :=
  (1 + s) ^ c.k * (1 - d) ^ c.l

/-- The division propensity `clones[i].n * fitness` of a clone. -/
def propensity (s d : ℚ) (c : Clone) : ℚ :=
  (c.n : ℚ) * fitness s d c

/-- The three accumulators of the propensity loop. -/
structure PropAcc where
  propensities : List ℚ
  active_clone_indices : List Nat
  total_division_propensity : ℚ

/-- The propensity loop `for (int i = 0; i < clones.size(); ++i)`, run on the
clones from index `i` on. -/
def propLoop (s d : ℚ) : List Clone → Nat → PropAcc → PropAcc
  | [], _, acc => acc
  | c :: cs, i, acc =>
    if c.n > 0 then
      propLoop s d cs (i + 1)
        { propensities := acc.propensities ++ [propensity s d c]
          active_clone_indices := acc.active_clone_indices ++ [i]
          total_division_propensity := acc.total_division_propensity + propensity s d c }
    else
      propLoop s d cs (i + 1) acc

/-- The vectors `propensities`, `active_clone_indices` and the sum
`total_division_propensity` computed at the head of a loop iteration. -/
def computePropensities (s d : ℚ) (clones : List Clone) : PropAcc :=
  propLoop s d clones 0 { propensities := [], active_clone_indices := [],
                          total_division_propensity := 0 }

/-- The value `total_division_propensity` of a registry. -/
def totalDivisionPropensity (s d : ℚ) (clones : List Clone) : ℚ :=
  (computePropensities s d clones).total_division_propensity

/-! ## Selection policies -/

/-- The roulette-wheel loop over `propensities`, with `cum` the running value
of `cumulative_prop_repro` (resp. `cumulative_prop_death`). -/
def rouletteWalk (r : ℚ) : List ℚ → List Nat → ℚ → Option Nat
  | w :: ws, i :: is, cum =>
    if r < cum + w then some i else rouletteWalk r ws is (cum + w)
  | _, _, _ => none

/-- Proportional clone selection with the draw `r`: the roulette wheel over
the propensities of a registry. -/
def proportionalSelect (s d : ℚ) (clones : List Clone) (r : ℚ) : Option Nat :=
  rouletteWalk r (computePropensities s d clones).propensities
    (computePropensities s d clones).active_clone_indices 0

/-- The mutation-parent loop: every clone adds its `n` to `cumulative_n`. -/
def parentWalk (random_cell_pos : Int) : List Clone → Nat → Int → Option Nat
  | [], _, _ => none
  | c :: cs, i, cumulative_n =>
    if random_cell_pos ≤ cumulative_n + c.n then some i
    else parentWalk random_cell_pos cs (i + 1) (cumulative_n + c.n)

/-- The regime-B death loop: clones with `n > 0` only are added and tested. -/
def deathWalkB (random_cell_pos : Int) : List Clone → Nat → Int → Option Nat
  | [], _, _ => none
  | c :: cs, i, cumulative_n =>
    if c.n > 0 then
      if random_cell_pos ≤ cumulative_n + c.n then some i
      else deathWalkB random_cell_pos cs (i + 1) (cumulative_n + c.n)
    else
      deathWalkB random_cell_pos cs (i + 1) cumulative_n

/-- Uniform cell selection of the mutation parent. -/
def selectParent (clones : List Clone) (random_cell_pos : Int) : Option Nat :=
  parentWalk random_cell_pos clones 0 0

/-- Uniform cell selection of the dying clone under regime B. -/
def selectDeathB (clones : List Clone) (random_cell_pos : Int) : Option Nat :=
  deathWalkB random_cell_pos clones 0 0

/-! ## Event appliers -/

/-- The in-place update `clones[i].n += delta` (`n--` is `delta = -1`, `n++`
is `delta = 1`). -/
def adjN (delta : Int) : List Clone → Nat → List Clone
  | [], _ => []
  | c :: cs, 0 => { c with n := c.n + delta } :: cs
  | c :: cs, i + 1 => c :: adjN delta cs i

/-- The index `reproducing_clone_idx` of a Division/Death event. -/
def reproducingIdx (P : Params) (clones : List Clone) (dr : Draws) : Option Nat :=
  proportionalSelect P.s P.d clones (dr.u_repro * totalDivisionPropensity P.s P.d clones)

/-- The index `dying_clone_idx` of a Division/Death event. -/
def dyingIdx (P : Params) (clones : List Clone) (dr : Draws) : Option Nat :=
  match P.model_type with
  | ModelType.A =>
    proportionalSelect P.s P.d clones (dr.u_death * totalDivisionPropensity P.s P.d clones)
  | ModelType.B => selectDeathB clones dr.random_cell_pos

/-- The update of a Division/Death event, given the two selected indices. -/
def applyDivisionDeath (clones : List Clone) : Option Nat → Option Nat → List Clone
  | some dying_clone_idx, some reproducing_clone_idx =>
    adjN 1 (adjN (-1) clones dying_clone_idx) reproducing_clone_idx
  | _, _ => clones

/-- A Division/Death event. -/
def divisionDeathEvent (P : Params) (st : SimState) (dr : Draws) : SimState :=
  { st with clones := applyDivisionDeath st.clones (dyingIdx P st.clones dr)
                        (reproducingIdx P st.clones dr) }

/-- The update of a Mutation event whose parent selection returned
`parent_clone_idx`, with `u` the value of the driver/passenger draw. -/
def applyMutation (p : ℚ) (st : SimState) (parent_clone_idx : Nat) (u : ℚ) : SimState :=
  match (adjN (-1) st.clones parent_clone_idx)[parent_clone_idx]? with
  | none => st
  | some new_clone =>
    if u < p then
      { st with
        clones := adjN (-1) st.clones parent_clone_idx ++
          [{ k := new_clone.k + 1, l := new_clone.l, n := 1 }]
        cumulative_drivers := st.cumulative_drivers + 1 }
    else
      { st with
        clones := adjN (-1) st.clones parent_clone_idx ++
          [{ k := new_clone.k, l := new_clone.l + 1, n := 1 }]
        cumulative_passengers := st.cumulative_passengers + 1 }

/-- A Mutation event. -/
def mutationEvent (P : Params) (st : SimState) (dr : Draws) : SimState :=
  match selectParent st.clones dr.random_cell_pos with
  | none => st
  | some parent_clone_idx => applyMutation P.p st parent_clone_idx dr.u_type

/-- The event classification `r1 < total_division_propensity`. -/
def isDivisionDeath (P : Params) (clones : List Clone) (dr : Draws) : Bool :=
  decide (dr.u_class * (totalDivisionPropensity P.s P.d clones + P.L)
    < totalDivisionPropensity P.s P.d clones)

/-- The event of a loop iteration that passed the horizon check. -/
def applyEvent (P : Params) (st : SimState) (dr : Draws) : SimState :=
  if isDivisionDeath P st.clones dr then divisionDeathEvent P st dr
  else mutationEvent P st dr

/-! ## Recording and the main loop -/

/-- The value `active_clones_count`: `std::count_if` of `c.n > 0`. -/
def activeClonesCount (clones : List Clone) : Nat :=
  clones.countP (fun c => decide (c.n > 0))

/-- The row written at the end of a loop iteration. -/
def recordRow (st : SimState) : Row :=
  { time := st.t
    active_clones_count := activeClonesCount st.clones
    cumulative_drivers := st.cumulative_drivers
    cumulative_passengers := st.cumulative_passengers }

/-- The state before the first loop iteration. -/
def initState (P : Params) : SimState :=
  { t := 0, clones := [{ k := 0, l := 0, n := P.Ntot }],
    cumulative_drivers := 0, cumulative_passengers := 0 }

/-- The row written before the loop: `t << "," << 1 << "," << 0 << "," << 0`. -/
def initialRow (P : Params) : Row :=
  { time := (initState P).t, active_clones_count := 1,
    cumulative_drivers := 0, cumulative_passengers := 0 }

/-- The result of one execution of the loop body: `stopped` is the `break`
of the horizon check, `applied` an iteration that ran to its end and wrote a
row. -/
inductive Outcome where
  | stopped (st : SimState)
  | applied (st : SimState) (row : Row)

/-- The state the loop body leaves. -/
def Outcome.state : Outcome → SimState
  | Outcome.stopped st => st
  | Outcome.applied st _ => st

/-- The row the loop body wrote, if any. -/
def Outcome.row : Outcome → Option Row
  | Outcome.stopped _ => none
  | Outcome.applied _ row => some row

/-- One execution of the body of `while (t < tmax)`. -/
def iteration (P : Params) (st : SimState) (dr : Draws) : Outcome :=
  if st.t + dr.dt ≥ P.tmax then
    Outcome.stopped { st with t := st.t + dr.dt }
  else
    Outcome.applied (applyEvent P { st with t := st.t + dr.dt } dr)
      (recordRow (applyEvent P { st with t := st.t + dr.dt } dr))

/-- The rows written by the loop started in `st`, the successive iterations
taking their draws from the list (the loop is cut when the list is used up). -/
def runLoop (P : Params) : SimState → List Draws → List Row
  | _, [] => []
  | st, dr :: rest =>
    if st.t < P.tmax then
      match iteration P st dr with
      | Outcome.stopped _ => []
      | Outcome.applied st' row => row :: runLoop P st' rest
    else []

/-- The rows of the output file: the initial row, then the rows of the loop. -/
def run (P : Params) (draws : List Draws) : List Row :=
  initialRow P :: runLoop P (initState P) draws

/-- The states of a run whose draws all satisfy `ok`: the initial state, and
the state left by a loop iteration entered from such a state. -/
inductive ReachableBy (ok : Draws → Prop) (P : Params) : SimState → Prop where
  | init : ReachableBy ok P (initState P)
  | step (st : SimState) (dr : Draws) :
      ReachableBy ok P st → st.t < P.tmax → ok dr →
      ReachableBy ok P (iteration P st dr).state

/-- The states reachable with arbitrary values of the draws. -/
def Reachable (P : Params) (st : SimState) : Prop :=
  ReachableBy (fun _ => True) P st

/-! ## Specification-level quantities -/

/-- The sum of `n` over a registry. -/
def totalPopulation (clones : List Clone) : Int :=
  (clones.map (fun c => c.n)).sum

/-- The sum of `n` over the first `i` clones of a registry. -/
def populationBefore (clones : List Clone) (i : Nat) : Int :=
  totalPopulation (clones.take i)

/-- The sum of the division propensities of the active clones among the
first `i` clones of a registry. -/
def propensityBefore (s d : ℚ) (clones : List Clone) (i : Nat) : ℚ :=
  (((clones.take i).filter (fun c => decide (c.n > 0))).map (propensity s d)).sum

/-- The division propensities of the active clones of a registry, in
registry order. -/
def activePropensities (s d : ℚ) (clones : List Clone) : List ℚ :=
  (clones.filter (fun c => decide (c.n > 0))).map (propensity s d)

/-- The indices of the active clones of a registry, in increasing order,
the first clone having index `i`. -/
def activeIndicesFrom : List Clone → Nat → List Nat
  | [], _ => []
  | c :: cs, i =>
    if c.n > 0 then i :: activeIndicesFrom cs (i + 1) else activeIndicesFrom cs (i + 1)

/-! ## Concrete inputs used to instantiate the theorems -/

/-- A regime-A parameter set: `A 1 3 1 0.5 1 0.5`. -/
def exampleParams : Params :=
  { model_type := ModelType.A, tmax := 1, Ntot := 3, s := 1, d := 1 / 2, L := 1, p := 1 / 2 }

/-- A regime-B parameter set: `B 1 3 1 0.5 1 0.5`. -/
def exampleParamsB : Params :=
  { model_type := ModelType.B, tmax := 1, Ntot := 3, s := 1, d := 1 / 2, L := 1, p := 1 / 2 }

/-- Draws that make the first iteration a Division/Death event. -/
def exampleDrawsDivision : Draws :=
  { dt := 1 / 4, u_class := 0, u_repro := 0, u_death := 0, random_cell_pos := 1, u_type := 0 }

/-- Draws that make the first iteration a driver Mutation event. -/
def exampleDrawsMutation : Draws :=
  { dt := 1 / 4, u_class := 9 / 10, u_repro := 0, u_death := 0, random_cell_pos := 1,
    u_type := 0 }

/-- A registry with an extinct clone between two active ones. -/
def exampleRegistry : List Clone :=
  [{ k := 0, l := 0, n := 2 }, { k := 1, l := 0, n := 0 }, { k := 0, l := 1, n := 1 }]

/-- The regime-A parameter set with a single cell: `A 1 1 1 0.5 1 0.5`. -/
def exampleParamsOne : Params :=
  { model_type := ModelType.A, tmax := 1, Ntot := 1, s := 1, d := 1 / 2, L := 1, p := 1 / 2 }

/-- The regime-A parameter set with horizon `tmax = 0`. -/
def exampleParamsNoTime : Params :=
  { model_type := ModelType.A, tmax := 0, Ntot := 3, s := 1, d := 1 / 2, L := 1, p := 1 / 2 }

/-- Draws whose waiting time is `0` (the exponential draw returns `0` when
its underlying uniform value is `0`), followed by a Division/Death event. -/
def exampleDrawsZeroWait : Draws :=
  { dt := 0, u_class := 0, u_repro := 0, u_death := 0, random_cell_pos := 1, u_type := 0 }

/-- The states in which the loop writes its successive rows: the state at
the end of each iteration that ran to its end (same control flow as
`runLoop`). -/
def runLoopStates (P : Params) : SimState → List Draws → List SimState
  | _, [] => []
  | st, dr :: rest =>
    if st.t < P.tmax then
      match iteration P st dr with
      | Outcome.stopped _ => []
      | Outcome.applied st' _ => st' :: runLoopStates P st' rest
    else []

/-- Every clone of `cs` is still at its index in `cs'`, with the same `k`
and `l`. -/
def KeepsMutationCounts (cs cs' : List Clone) : Prop :=
  ∀ (j : Nat) (c : Clone), cs[j]? = some c →
    ∃ c' : Clone, cs'[j]? = some c' ∧ c'.k = c.k ∧ c'.l = c.l

/-- The regime-A parameter set with no cell: `A 1 0 1 0.5 1 0.5`. -/
def exampleParamsEmpty : Params :=
  { model_type := ModelType.A, tmax := 1, Ntot := 0, s := 1, d := 1 / 2, L := 1, p := 1 / 2 }

/-- The regime-B parameter set with mutation rate `L = 0`:
`B 1 3 1 0.5 0 0.5`. -/
def exampleParamsNoMutation : Params :=
  { model_type := ModelType.B, tmax := 1, Ntot := 3, s := 1, d := 1 / 2, L := 0, p := 1 / 2 }

/-! ## Death-selection distributions of the two regimes -/

/-- The value `w` is the probability with which the death selection of
regime A returns clone `i`: the values of the death draw `u_death`, uniform
on `[0, 1)`, for which `dyingIdx` under `model_type = A` returns `i` are
exactly those of a half-open interval of length `w` inside `[0, 1]`. -/
def IsDeathShareA (P : Params) (clones : List Clone) (i : Nat) (w : ℚ) : Prop :=
  ∃ lo : ℚ, 0 ≤ lo ∧ 0 ≤ w ∧ lo + w ≤ 1 ∧
    ∀ dr : Draws, 0 ≤ dr.u_death → dr.u_death < 1 →
      (dyingIdx { P with model_type := ModelType.A } clones dr = some i ↔
        lo ≤ dr.u_death ∧ dr.u_death < lo + w)

/-- The value `w` is the probability with which the death selection of
regime B returns clone `i`: the number of cell indices of `[1, Ntot]`, the
range of `cell_dist`, for which `dyingIdx` under `model_type = B` returns
`i`, divided by `Ntot`, whatever the other draws. -/
def IsDeathShareB (P : Params) (clones : List Clone) (i : Nat) (w : ℚ) : Prop :=
  ∀ dr : Draws,
    (((Finset.Icc 1 P.Ntot).filter (fun cell =>
        dyingIdx { P with model_type := ModelType.B } clones
          { dr with random_cell_pos := cell } = some i)).card : ℚ) / (P.Ntot : ℚ) = w

/-! ## Underflow of `std::pow` on doubles -/

/-- Half of the least positive double `2^-1074`: in round-to-nearest, a real
result of smaller magnitude is returned as `0.0`. -/
def underflowBound : ℚ := 1 / 2 ^ 1075

/-- The value of `std::pow(x, k)` on doubles as far as underflow goes: `0.0`
when the exact power is below `underflowBound` in magnitude, and the exact
power otherwise (rounding of the mantissa and overflow are not modelled). -/
def powDouble (x : ℚ) (k : Int) : ℚ :=
  if |x ^ k| < underflowBound then 0 else x ^ k

/-- The fitness of line 101 with the underflow of `std::pow`. -/
def fitnessDouble (s d : ℚ) (c : Clone) : ℚ :=
  powDouble (1 + s) c.k * powDouble (1 - d) c.l

/-- The division propensity of line 103 with the underflow of `std::pow`. -/
def propensityDouble (s d : ℚ) (c : Clone) : ℚ :=
  (c.n : ℚ) * fitnessDouble s d c

/-- A regime-A parameter set with a single cell and passenger mutations
only: `A 2000 1 0 0.5 1 0`. -/
def exampleParamsUnderflow : Params :=
  { model_type := ModelType.A, tmax := 2000, Ntot := 1, s := 0, d := 1 / 2, L := 1, p := 0 }

/-- Draws that make an iteration from a single active clone of fitness at
most 1 a passenger Mutation event of the only cell, after a waiting time 1. -/
def exampleDrawsPassenger : Draws :=
  { dt := 1, u_class := 3 / 4, u_repro := 0, u_death := 0, random_cell_pos := 1, u_type := 0 }

/-- The extinct clones left behind by `m` successive passenger mutations of
a single cell: `l = 0, ..., m - 1`, each with `n = 0`. -/
def extinctChain (m : Nat) : List Clone :=
  (List.range m).map (fun (j : Nat) => { k := 0, l := (j : Int), n := 0 })

/-- The registry after `m` successive passenger mutations of the only cell:
the extinct clones with `l = 0, ..., m - 1`, then the clone with `l = m`
holding the cell. -/
def passengerChain (m : Nat) : List Clone :=
  extinctChain m ++ [{ k := 0, l := (m : Int), n := 1 }]

/-- The state after `m` iterations with the draws `exampleDrawsPassenger`. -/
def passengerState (m : Nat) : SimState :=
  { t := (m : ℚ), clones := passengerChain m, cumulative_drivers := 0,
    cumulative_passengers := (m : Int) }

/-! ## Registry updates -/

theorem adjN_length (delta : Int) (cs : List Clone) (i : Nat) :
    (adjN delta cs i).length = cs.length := by
  induction cs generalizing i with
  | nil => simp [adjN]
  | cons c cs ih =>
    cases i with
    | zero => simp [adjN]
    | succ i => simp [adjN, ih]

theorem adjN_getElem?_self (delta : Int) (cs : List Clone) (i : Nat) :
    (adjN delta cs i)[i]? = (cs[i]?).map (fun c => { c with n := c.n + delta }) := by
  induction cs generalizing i with
  | nil => simp [adjN]
  | cons c cs ih =>
    cases i with
    | zero => simp [adjN]
    | succ i => simpa [adjN] using ih i

theorem adjN_getElem?_ne (delta : Int) (cs : List Clone) (i j : Nat) (h : j ≠ i) :
    (adjN delta cs i)[j]? = cs[j]? := by
  induction cs generalizing i j with
  | nil => simp [adjN]
  | cons c cs ih =>
    cases i with
    | zero =>
      cases j with
      | zero => exact absurd rfl h
      | succ j => simp [adjN]
    | succ i =>
      cases j with
      | zero => simp [adjN]
      | succ j =>
        have h' : j ≠ i := fun e => h (by rw [e])
        simpa [adjN] using ih i j h'

theorem totalPopulation_adjN (delta : Int) (cs : List Clone) (i : Nat) (h : i < cs.length) :
    totalPopulation (adjN delta cs i) = totalPopulation cs + delta := by
  induction cs generalizing i with
  | nil => simp at h
  | cons c cs ih =>
    cases i with
    | zero => simp [adjN, totalPopulation]; ring
    | succ i =>
      have h' : i < cs.length := by simpa using h
      have := ih i h'
      simp only [totalPopulation, adjN, List.map_cons, List.sum_cons] at this ⊢
      rw [this]; ring

theorem totalPopulation_append (cs ds : List Clone) :
    totalPopulation (cs ++ ds) = totalPopulation cs + totalPopulation ds := by
  simp [totalPopulation]

/-! ## Indices returned by the walks -/

theorem parentWalk_bound (pos : Int) (cs : List Clone) (i0 : Nat) (cum : Int) (i : Nat)
    (h : parentWalk pos cs i0 cum = some i) : i0 ≤ i ∧ i < i0 + cs.length := by
  induction cs generalizing i0 cum with
  | nil => simp [parentWalk] at h
  | cons c cs ih =>
    simp only [parentWalk] at h
    split at h
    · simp only [Option.some.injEq] at h
      subst h
      simp
    · have := ih (i0 + 1) _ h
      simp only [List.length_cons]
      omega

theorem deathWalkB_bound (pos : Int) (cs : List Clone) (i0 : Nat) (cum : Int) (i : Nat)
    (h : deathWalkB pos cs i0 cum = some i) :
    i0 ≤ i ∧ i < i0 + cs.length ∧ ∃ c, cs[i - i0]? = some c ∧ 0 < c.n := by
  induction cs generalizing i0 cum with
  | nil => simp [deathWalkB] at h
  | cons c cs ih =>
    simp only [deathWalkB] at h
    split at h
    · rename_i hc
      split at h
      · simp only [Option.some.injEq] at h
        subst h
        simpa using hc
      · obtain ⟨h1, h2, c', h3, h4⟩ := ih (i0 + 1) _ h
        refine ⟨by omega, by simp only [List.length_cons]; omega, c', ?_, h4⟩
        have e : i - i0 = (i - (i0 + 1)) + 1 := by omega
        rw [e, List.getElem?_cons_succ]
        exact h3
    · obtain ⟨h1, h2, c', h3, h4⟩ := ih (i0 + 1) _ h
      refine ⟨by omega, by simp only [List.length_cons]; omega, c', ?_, h4⟩
      have e : i - i0 = (i - (i0 + 1)) + 1 := by omega
      rw [e, List.getElem?_cons_succ]
      exact h3

theorem selectDeathB_active (cs : List Clone) (pos : Int) (i : Nat)
    (h : selectDeathB cs pos = some i) : ∃ c, cs[i]? = some c ∧ 0 < c.n := by
  obtain ⟨_, _, c, h3, h4⟩ := deathWalkB_bound pos cs 0 0 i h
  exact ⟨c, by simpa using h3, h4⟩

/-! ## The propensity loop -/

theorem propLoop_eq (s d : ℚ) (cs : List Clone) (i : Nat) (acc : PropAcc) :
    propLoop s d cs i acc =
      { propensities := acc.propensities ++ activePropensities s d cs
        active_clone_indices := acc.active_clone_indices ++ activeIndicesFrom cs i
        total_division_propensity :=
          acc.total_division_propensity + (activePropensities s d cs).sum } := by
  induction cs generalizing i acc with
  | nil => simp [propLoop, activePropensities, activeIndicesFrom]
  | cons c cs ih =>
    by_cases hc : c.n > 0
    · simp [propLoop, activePropensities, activeIndicesFrom, hc, ih, add_assoc]
    · simp [propLoop, activePropensities, activeIndicesFrom, hc, ih]

theorem computePropensities_eq (s d : ℚ) (cs : List Clone) :
    computePropensities s d cs =
      { propensities := activePropensities s d cs
        active_clone_indices := activeIndicesFrom cs 0
        total_division_propensity := (activePropensities s d cs).sum } := by
  simp [computePropensities, propLoop_eq]

theorem totalDivisionPropensity_eq (s d : ℚ) (cs : List Clone) :
    totalDivisionPropensity s d cs = (activePropensities s d cs).sum := by
  simp [totalDivisionPropensity, computePropensities_eq]

theorem proportionalSelect_eq (s d : ℚ) (cs : List Clone) (r : ℚ) :
    proportionalSelect s d cs r =
      rouletteWalk r (activePropensities s d cs) (activeIndicesFrom cs 0) 0 := by
  simp [proportionalSelect, computePropensities_eq]

theorem propensityBefore_zero (s d : ℚ) (cs : List Clone) :
    propensityBefore s d cs 0 = 0 := by
  simp [propensityBefore]

theorem propensityBefore_cons_succ (s d : ℚ) (c : Clone) (cs : List Clone) (j : Nat) :
    propensityBefore s d (c :: cs) (j + 1) =
      (if 0 < c.n then propensity s d c else 0) + propensityBefore s d cs j := by
  by_cases hc : 0 < c.n <;> simp [propensityBefore, hc]

theorem propensityBefore_length (s d : ℚ) (cs : List Clone) :
    propensityBefore s d cs cs.length = (activePropensities s d cs).sum := by
  simp [propensityBefore, activePropensities]

theorem propensityBefore_nonneg (s d : ℚ) (cs : List Clone)
    (hpos : ∀ c ∈ cs, 0 < c.n → 0 < propensity s d c) (j : Nat) :
    0 ≤ propensityBefore s d cs j := by
  induction cs generalizing j with
  | nil => simp [propensityBefore]
  | cons c cs ih =>
    cases j with
    | zero => simp [propensityBefore]
    | succ j =>
      rw [propensityBefore_cons_succ]
      have h1 := ih (fun c' hc' => hpos c' (List.mem_cons_of_mem _ hc')) j
      by_cases hc : 0 < c.n
      · have := hpos c (List.mem_cons_self _ _) hc
        simp only [hc, if_true]
        linarith
      · simp only [hc, if_false]
        linarith

theorem rouletteWalk_active_iff (s d : ℚ) (r : ℚ) (cs : List Clone)
    (hpos : ∀ c ∈ cs, 0 < c.n → 0 < propensity s d c) (i0 : Nat) (cum : ℚ) (hcum : cum ≤ r)
    (i : Nat) :
    rouletteWalk r (activePropensities s d cs) (activeIndicesFrom cs i0) cum = some i ↔
      ∃ j c, i = i0 + j ∧ cs[j]? = some c ∧ 0 < c.n ∧
        cum + propensityBefore s d cs j ≤ r ∧ r < cum + propensityBefore s d cs (j + 1) := by
  induction cs generalizing i0 cum with
  | nil => simp [activePropensities, activeIndicesFrom, rouletteWalk]
  | cons c cs ih =>
    have hpos' : ∀ c' ∈ cs, 0 < c'.n → 0 < propensity s d c' :=
      fun c' hc' => hpos c' (List.mem_cons_of_mem _ hc')
    by_cases hc : 0 < c.n
    · have hp := hpos c (List.mem_cons_self _ _) hc
      have e1 : activePropensities s d (c :: cs) = propensity s d c :: activePropensities s d cs := by
        simp [activePropensities, hc]
      have e2 : activeIndicesFrom (c :: cs) i0 = i0 :: activeIndicesFrom cs (i0 + 1) := by
        simp [activeIndicesFrom, hc]
      rw [e1, e2]
      simp only [rouletteWalk]
      by_cases hr : r < cum + propensity s d c
      · simp only [hr, if_true, Option.some.injEq]
        constructor
        · intro h
          refine ⟨0, c, by omega, by simp, hc, ?_, ?_⟩
          · simpa [propensityBefore_zero] using hcum
          · rw [propensityBefore_cons_succ, propensityBefore_zero]
            simpa [hc] using hr
        · rintro ⟨j, c', hi, hj, _, hlo, _⟩
          cases j with
          | zero => omega
          | succ j =>
            rw [propensityBefore_cons_succ] at hlo
            have := propensityBefore_nonneg s d cs hpos' j
            simp only [hc, if_true] at hlo
            linarith
      · simp only [hr, if_false]
        have hcum' : cum + propensity s d c ≤ r := not_lt.mp hr
        rw [ih hpos' (i0 + 1) _ hcum']
        constructor
        · rintro ⟨j, c', hi, hj, hcj, hlo, hhi⟩
          refine ⟨j + 1, c', by omega, by simpa using hj, hcj, ?_, ?_⟩
          · rw [propensityBefore_cons_succ]; simp only [hc, if_true]; linarith
          · rw [propensityBefore_cons_succ]; simp only [hc, if_true]; linarith
        · rintro ⟨j, c', hi, hj, hcj, hlo, hhi⟩
          cases j with
          | zero =>
            rw [propensityBefore_cons_succ, propensityBefore_zero] at hhi
            simp only [hc, if_true] at hhi
            linarith
          | succ j =>
            rw [propensityBefore_cons_succ] at hlo hhi
            simp only [hc, if_true] at hlo hhi
            exact ⟨j, c', by omega, by simpa using hj, hcj, by linarith, by linarith⟩
    · have e1 : activePropensities s d (c :: cs) = activePropensities s d cs := by
        simp [activePropensities, hc]
      have e2 : activeIndicesFrom (c :: cs) i0 = activeIndicesFrom cs (i0 + 1) := by
        simp [activeIndicesFrom, hc]
      rw [e1, e2, ih hpos' (i0 + 1) cum hcum]
      constructor
      · rintro ⟨j, c', hi, hj, hcj, hlo, hhi⟩
        refine ⟨j + 1, c', by omega, by simpa using hj, hcj, ?_, ?_⟩
        · rw [propensityBefore_cons_succ]; simp only [hc, if_false]; linarith
        · rw [propensityBefore_cons_succ]; simp only [hc, if_false]; linarith
      · rintro ⟨j, c', hi, hj, hcj, hlo, hhi⟩
        cases j with
        | zero =>
          simp only [List.getElem?_cons_zero, Option.some.injEq] at hj
          subst hj
          exact absurd hcj hc
        | succ j =>
          rw [propensityBefore_cons_succ] at hlo hhi
          simp only [hc, if_false] at hlo hhi
          exact ⟨j, c', by omega, by simpa using hj, hcj, by linarith, by linarith⟩

theorem rouletteWalk_mem (r : ℚ) (ws : List ℚ) (is : List Nat) (cum : ℚ) (i : Nat)
    (h : rouletteWalk r ws is cum = some i) : i ∈ is := by
  induction ws generalizing is cum with
  | nil => simp [rouletteWalk] at h
  | cons w ws ih =>
    cases is with
    | nil => simp [rouletteWalk] at h
    | cons a is =>
      simp only [rouletteWalk] at h
      split at h
      · simp only [Option.some.injEq] at h
        simp [h]
      · exact List.mem_cons_of_mem _ (ih is _ h)

theorem rouletteWalk_exists (r : ℚ) (ws : List ℚ) (is : List Nat) (cum : ℚ)
    (hlen : ws.length = is.length) (hcum : cum ≤ r) (h : r < cum + ws.sum) :
    ∃ i, rouletteWalk r ws is cum = some i := by
  induction ws generalizing is cum with
  | nil =>
    simp only [List.sum_nil, add_zero] at h
    exact absurd h (not_lt.mpr hcum)
  | cons w ws ih =>
    cases is with
    | nil => simp at hlen
    | cons a is =>
      simp only [rouletteWalk]
      by_cases hr : r < cum + w
      · exact ⟨a, by simp [hr]⟩
      · simp only [hr, if_false]
        apply ih is (cum + w) (by simpa using hlen) (not_lt.mp hr)
        simpa [add_assoc] using h

theorem mem_activeIndicesFrom (cs : List Clone) (i0 i : Nat) :
    i ∈ activeIndicesFrom cs i0 ↔ ∃ j c, i = i0 + j ∧ cs[j]? = some c ∧ 0 < c.n := by
  induction cs generalizing i0 with
  | nil => simp [activeIndicesFrom]
  | cons c cs ih =>
    have key : (∃ j c', i = i0 + j ∧ (c :: cs)[j]? = some c' ∧ 0 < c'.n) ↔
        ((i = i0 ∧ 0 < c.n) ∨ ∃ j c', i = i0 + 1 + j ∧ cs[j]? = some c' ∧ 0 < c'.n) := by
      constructor
      · rintro ⟨j, c', hi, hj, hc'⟩
        cases j with
        | zero =>
          simp only [List.getElem?_cons_zero, Option.some.injEq] at hj
          subst hj
          exact Or.inl ⟨by omega, hc'⟩
        | succ j => exact Or.inr ⟨j, c', by omega, by simpa using hj, hc'⟩
      · rintro (⟨hi, hc⟩ | ⟨j, c', hi, hj, hc'⟩)
        · exact ⟨0, c, by omega, by simp, hc⟩
        · exact ⟨j + 1, c', by omega, by simpa using hj, hc'⟩
    rw [key]
    by_cases hc : 0 < c.n
    · simp [activeIndicesFrom, hc, ih]
    · simp [activeIndicesFrom, hc, ih]

theorem activeIndicesFrom_length (s d : ℚ) (cs : List Clone) (i0 : Nat) :
    (activePropensities s d cs).length = (activeIndicesFrom cs i0).length := by
  induction cs generalizing i0 with
  | nil => simp [activePropensities, activeIndicesFrom]
  | cons c cs ih =>
    have ih' := ih (i0 + 1)
    simp only [activePropensities, List.length_map] at ih'
    by_cases hc : 0 < c.n
    · simp [activePropensities, activeIndicesFrom, hc, ih']
    · simp [activePropensities, activeIndicesFrom, hc, ih']

theorem proportionalSelect_active (s d : ℚ) (cs : List Clone) (r : ℚ) (i : Nat)
    (h : proportionalSelect s d cs r = some i) : ∃ c, cs[i]? = some c ∧ 0 < c.n := by
  rw [proportionalSelect_eq] at h
  obtain ⟨j, c, hi, hj, hc⟩ := (mem_activeIndicesFrom cs 0 i).mp (rouletteWalk_mem _ _ _ _ _ h)
  have : i = j := by omega
  subst this
  exact ⟨c, hj, hc⟩

theorem proportionalSelect_exists (s d : ℚ) (cs : List Clone) (r : ℚ) (h0 : 0 ≤ r)
    (h : r < totalDivisionPropensity s d cs) : ∃ i, proportionalSelect s d cs r = some i := by
  rw [proportionalSelect_eq]
  apply rouletteWalk_exists _ _ _ _ (activeIndicesFrom_length s d cs 0) h0
  rw [totalDivisionPropensity_eq] at h
  simpa using h

/-! ## The uniform cell walks -/

theorem populationBefore_zero (cs : List Clone) : populationBefore cs 0 = 0 := by
  simp [populationBefore, totalPopulation]

theorem populationBefore_cons_succ (c : Clone) (cs : List Clone) (j : Nat) :
    populationBefore (c :: cs) (j + 1) = c.n + populationBefore cs j := by
  simp [populationBefore, totalPopulation]

theorem populationBefore_length (cs : List Clone) :
    populationBefore cs cs.length = totalPopulation cs := by
  simp [populationBefore]

theorem populationBefore_nonneg (cs : List Clone) (hnn : ∀ c ∈ cs, 0 ≤ c.n) (j : Nat) :
    0 ≤ populationBefore cs j := by
  induction cs generalizing j with
  | nil => simp [populationBefore, totalPopulation]
  | cons c cs ih =>
    cases j with
    | zero => simp [populationBefore, totalPopulation]
    | succ j =>
      rw [populationBefore_cons_succ]
      have h1 := ih (fun c' hc' => hnn c' (List.mem_cons_of_mem _ hc')) j
      have h2 := hnn c (List.mem_cons_self _ _)
      omega

theorem populationBefore_succ (cs : List Clone) (j : Nat) (c : Clone) (h : cs[j]? = some c) :
    populationBefore cs (j + 1) = populationBefore cs j + c.n := by
  induction cs generalizing j with
  | nil => simp at h
  | cons a cs ih =>
    cases j with
    | zero =>
      simp only [List.getElem?_cons_zero, Option.some.injEq] at h
      subst h
      simp [populationBefore, totalPopulation]
    | succ j =>
      rw [populationBefore_cons_succ, populationBefore_cons_succ, ih j (by simpa using h)]
      ring

theorem populationBefore_le_total (cs : List Clone) (hnn : ∀ c ∈ cs, 0 ≤ c.n) (j : Nat) :
    populationBefore cs j ≤ totalPopulation cs := by
  induction cs generalizing j with
  | nil => simp [populationBefore, totalPopulation]
  | cons c cs ih =>
    cases j with
    | zero =>
      rw [populationBefore_zero, ← populationBefore_length]
      exact populationBefore_nonneg _ hnn _
    | succ j =>
      rw [populationBefore_cons_succ]
      have h1 := ih (fun c' hc' => hnn c' (List.mem_cons_of_mem _ hc')) j
      simp only [totalPopulation, List.map_cons, List.sum_cons] at h1 ⊢
      omega

theorem parentWalk_iff (pos : Int) (cs : List Clone) (hnn : ∀ c ∈ cs, 0 ≤ c.n)
    (i0 : Nat) (cum : Int) (hcum : cum < pos) (i : Nat) :
    parentWalk pos cs i0 cum = some i ↔
      ∃ j, i = i0 + j ∧ j < cs.length ∧
        cum + populationBefore cs j < pos ∧ pos ≤ cum + populationBefore cs (j + 1) := by
  induction cs generalizing i0 cum with
  | nil => simp [parentWalk]
  | cons c cs ih =>
    have hnn' : ∀ c' ∈ cs, 0 ≤ c'.n := fun c' hc' => hnn c' (List.mem_cons_of_mem _ hc')
    simp only [parentWalk]
    by_cases hr : pos ≤ cum + c.n
    · simp only [hr, if_true, Option.some.injEq]
      constructor
      · intro h
        refine ⟨0, by omega, by simp, ?_, ?_⟩
        · rw [populationBefore_zero]; omega
        · rw [populationBefore_cons_succ, populationBefore_zero]; omega
      · rintro ⟨j, hi, hj, hlo, _⟩
        cases j with
        | zero => omega
        | succ j =>
          rw [populationBefore_cons_succ] at hlo
          have := populationBefore_nonneg cs hnn' j
          omega
    · simp only [hr, if_false]
      rw [ih hnn' (i0 + 1) _ (by omega)]
      constructor
      · rintro ⟨j, hi, hj, hlo, hhi⟩
        refine ⟨j + 1, by omega, by simpa using hj, ?_, ?_⟩
        · rw [populationBefore_cons_succ]; omega
        · rw [populationBefore_cons_succ]; omega
      · rintro ⟨j, hi, hj, hlo, hhi⟩
        cases j with
        | zero =>
          rw [populationBefore_cons_succ, populationBefore_zero] at hhi
          omega
        | succ j =>
          rw [populationBefore_cons_succ] at hlo hhi
          exact ⟨j, by omega, by simpa using hj, by omega, by omega⟩

theorem parentWalk_exists (pos : Int) (cs : List Clone) (i0 : Nat) (cum : Int)
    (hcum : cum < pos) (h : pos ≤ cum + totalPopulation cs) :
    ∃ i, parentWalk pos cs i0 cum = some i := by
  induction cs generalizing i0 cum with
  | nil => simp [totalPopulation] at h; omega
  | cons c cs ih =>
    simp only [parentWalk]
    by_cases hr : pos ≤ cum + c.n
    · exact ⟨i0, by simp [hr]⟩
    · simp only [hr, if_false]
      apply ih (i0 + 1) (cum + c.n) (by omega)
      simp only [totalPopulation, List.map_cons, List.sum_cons] at h ⊢
      omega

theorem deathWalkB_eq_parentWalk (pos : Int) (cs : List Clone) (hnn : ∀ c ∈ cs, 0 ≤ c.n)
    (i0 : Nat) (cum : Int) (hcum : cum < pos) :
    deathWalkB pos cs i0 cum = parentWalk pos cs i0 cum := by
  induction cs generalizing i0 cum with
  | nil => simp [deathWalkB, parentWalk]
  | cons c cs ih =>
    have hnn' : ∀ c' ∈ cs, 0 ≤ c'.n := fun c' hc' => hnn c' (List.mem_cons_of_mem _ hc')
    have hc0 := hnn c (List.mem_cons_self _ _)
    simp only [deathWalkB, parentWalk]
    by_cases hc : c.n > 0
    · simp only [hc, if_true]
      by_cases hr : pos ≤ cum + c.n
      · simp [hr]
      · simp only [hr, if_false]
        exact ih hnn' _ _ (by omega)
    · have e : c.n = 0 := by omega
      have hr : ¬ pos ≤ cum + c.n := by omega
      simp only [hc, hr, if_false]
      rw [e, add_zero]
      exact ih hnn' _ _ hcum

/-! ## Events -/

theorem selectParent_lt (cs : List Clone) (pos : Int) (i : Nat)
    (h : selectParent cs pos = some i) : i < cs.length := by
  have := parentWalk_bound pos cs 0 0 i h
  omega

theorem reproducingIdx_active (P : Params) (cs : List Clone) (dr : Draws) (i : Nat)
    (h : reproducingIdx P cs dr = some i) : ∃ c, cs[i]? = some c ∧ 0 < c.n :=
  proportionalSelect_active _ _ _ _ _ h

theorem dyingIdx_active (P : Params) (cs : List Clone) (dr : Draws) (i : Nat)
    (h : dyingIdx P cs dr = some i) : ∃ c, cs[i]? = some c ∧ 0 < c.n := by
  unfold dyingIdx at h
  cases hm : P.model_type <;> rw [hm] at h
  · exact proportionalSelect_active _ _ _ _ _ h
  · exact selectDeathB_active _ _ _ h

theorem lt_length_of_getElem? {cs : List Clone} {i : Nat} {c : Clone}
    (h : cs[i]? = some c) : i < cs.length := by
  by_contra hlt
  rw [List.getElem?_eq_none (by omega)] at h
  exact absurd h (by simp)

theorem applyMutation_eq (p : ℚ) (st : SimState) (i : Nat) (u : ℚ) (c : Clone)
    (hc : st.clones[i]? = some c) :
    applyMutation p st i u =
      if u < p then
        { st with
          clones := adjN (-1) st.clones i ++ [{ k := c.k + 1, l := c.l, n := 1 }]
          cumulative_drivers := st.cumulative_drivers + 1 }
      else
        { st with
          clones := adjN (-1) st.clones i ++ [{ k := c.k, l := c.l + 1, n := 1 }]
          cumulative_passengers := st.cumulative_passengers + 1 } := by
  have h1 : (adjN (-1) st.clones i)[i]? = some { c with n := c.n + -1 } := by
    rw [adjN_getElem?_self, hc]; rfl
  simp only [applyMutation, h1]

theorem totalPopulation_applyDivisionDeath (cs : List Clone) (dy re : Option Nat)
    (hdy : ∀ i, dy = some i → i < cs.length) (hre : ∀ i, re = some i → i < cs.length) :
    totalPopulation (applyDivisionDeath cs dy re) = totalPopulation cs := by
  cases dy with
  | none => simp [applyDivisionDeath]
  | some a =>
    cases re with
    | none => simp [applyDivisionDeath]
    | some b =>
      simp only [applyDivisionDeath]
      rw [totalPopulation_adjN _ _ _ (by rw [adjN_length]; exact hre b rfl),
        totalPopulation_adjN _ _ _ (hdy a rfl)]
      ring

theorem totalPopulation_divisionDeathEvent (P : Params) (st : SimState) (dr : Draws) :
    totalPopulation (divisionDeathEvent P st dr).clones = totalPopulation st.clones := by
  simp only [divisionDeathEvent]
  apply totalPopulation_applyDivisionDeath
  · intro i hi
    obtain ⟨c, hc, _⟩ := dyingIdx_active P st.clones dr i hi
    exact lt_length_of_getElem? hc
  · intro i hi
    obtain ⟨c, hc, _⟩ := reproducingIdx_active P st.clones dr i hi
    exact lt_length_of_getElem? hc

theorem totalPopulation_applyMutation (p : ℚ) (st : SimState) (i : Nat) (u : ℚ)
    (hi : i < st.clones.length) :
    totalPopulation (applyMutation p st i u).clones = totalPopulation st.clones := by
  obtain ⟨c, hc⟩ : ∃ c, st.clones[i]? = some c := ⟨st.clones[i], by simp [hi]⟩
  rw [applyMutation_eq p st i u c hc]
  have h1 := totalPopulation_adjN (-1) st.clones i hi
  have h2 : ∀ c' : Clone, c'.n = 1 → totalPopulation [c'] = 1 := by
    intro c' hc'
    simp [totalPopulation, hc']
  split
  · simp only [totalPopulation_append, h1]
    rw [h2 _ rfl]; ring
  · simp only [totalPopulation_append, h1]
    rw [h2 _ rfl]; ring

theorem totalPopulation_mutationEvent (P : Params) (st : SimState) (dr : Draws) :
    totalPopulation (mutationEvent P st dr).clones = totalPopulation st.clones := by
  unfold mutationEvent
  cases h : selectParent st.clones dr.random_cell_pos with
  | none => rfl
  | some i => exact totalPopulation_applyMutation _ _ _ _ (selectParent_lt _ _ _ h)

theorem totalPopulation_applyEvent (P : Params) (st : SimState) (dr : Draws) :
    totalPopulation (applyEvent P st dr).clones = totalPopulation st.clones := by
  unfold applyEvent
  split
  · exact totalPopulation_divisionDeathEvent P st dr
  · exact totalPopulation_mutationEvent P st dr

theorem iteration_state_cases (P : Params) (st : SimState) (dr : Draws) :
    (iteration P st dr).state = { st with t := st.t + dr.dt } ∨
      (iteration P st dr).state = applyEvent P { st with t := st.t + dr.dt } dr := by
  unfold iteration
  split
  · exact Or.inl rfl
  · exact Or.inr rfl

theorem totalPopulation_iteration (P : Params) (st : SimState) (dr : Draws) :
    totalPopulation (iteration P st dr).state.clones = totalPopulation st.clones := by
  rcases iteration_state_cases P st dr with h | h <;> rw [h]
  exact totalPopulation_applyEvent P _ dr

/-- Claim C1 (population conservation): whatever the regime and the values of
the draws, a Division/Death event, a Mutation event, and the event the main
loop applies each leave the sum of `n` over the registry equal to `Ntot` when
it was `Ntot` before; and the sum is `Ntot` in every state reachable from the
initial registry `[{0, 0, Ntot}]`. -/
theorem population_conservation (P : Params) :
    (∀ (st : SimState) (dr : Draws), totalPopulation st.clones = P.Ntot →
        totalPopulation (divisionDeathEvent P st dr).clones = P.Ntot ∧
        totalPopulation (mutationEvent P st dr).clones = P.Ntot ∧
        totalPopulation (applyEvent P st dr).clones = P.Ntot) ∧
    (∀ st : SimState, Reachable P st → totalPopulation st.clones = P.Ntot) := by
  constructor
  · intro st dr h
    rw [totalPopulation_divisionDeathEvent, totalPopulation_mutationEvent,
      totalPopulation_applyEvent]
    exact ⟨h, h, h⟩
  · intro st hst
    induction hst with
    | init => simp [initState, totalPopulation]
    | step st dr _ _ _ ih => rw [totalPopulation_iteration]; exact ih

/-! ## Non-negative populations -/

theorem adjN_nonneg (delta : Int) (cs : List Clone) (i : Nat) (hnn : ∀ c ∈ cs, 0 ≤ c.n)
    (hi : ∀ c, cs[i]? = some c → 0 ≤ c.n + delta) : ∀ c ∈ adjN delta cs i, 0 ≤ c.n := by
  induction cs generalizing i with
  | nil => simp [adjN]
  | cons a cs ih =>
    have hnn' : ∀ c' ∈ cs, 0 ≤ c'.n := fun c' hc' => hnn c' (List.mem_cons_of_mem _ hc')
    cases i with
    | zero =>
      intro c hc
      simp only [adjN, List.mem_cons] at hc
      rcases hc with hc | hc
      · subst hc
        exact hi a (by simp)
      · exact hnn' c hc
    | succ i =>
      intro c hc
      simp only [adjN, List.mem_cons] at hc
      rcases hc with hc | hc
      · subst hc
        exact hnn c (List.mem_cons_self _ _)
      · exact ih i hnn' (fun c' hc' => hi c' (by simpa using hc')) c hc

theorem nonneg_of_getElem? {cs : List Clone} (hnn : ∀ c ∈ cs, 0 ≤ c.n) {i : Nat} {c : Clone}
    (h : cs[i]? = some c) : 0 ≤ c.n :=
  hnn c (List.getElem?_mem h)

theorem selectParent_iff (cs : List Clone) (hnn : ∀ c ∈ cs, 0 ≤ c.n) (pos : Int)
    (hpos : 1 ≤ pos) (i : Nat) :
    selectParent cs pos = some i ↔
      i < cs.length ∧ populationBefore cs i < pos ∧ pos ≤ populationBefore cs (i + 1) := by
  unfold selectParent
  rw [parentWalk_iff pos cs hnn 0 0 (by omega) i]
  constructor
  · rintro ⟨j, hi, hj, hlo, hhi⟩
    have : i = j := by omega
    subst this
    exact ⟨hj, by omega, by omega⟩
  · rintro ⟨hi, hlo, hhi⟩
    exact ⟨i, by omega, hi, by omega, by omega⟩

theorem selectDeathB_eq_selectParent (cs : List Clone) (hnn : ∀ c ∈ cs, 0 ≤ c.n) (pos : Int)
    (hpos : 1 ≤ pos) : selectDeathB cs pos = selectParent cs pos :=
  deathWalkB_eq_parentWalk pos cs hnn 0 0 (by omega)

theorem selectParent_active (cs : List Clone) (hnn : ∀ c ∈ cs, 0 ≤ c.n) (pos : Int)
    (hpos : 1 ≤ pos) (i : Nat) (h : selectParent cs pos = some i) :
    ∃ c, cs[i]? = some c ∧ 1 ≤ c.n := by
  obtain ⟨hi, hlo, hhi⟩ := (selectParent_iff cs hnn pos hpos i).mp h
  refine ⟨cs[i], by simp [hi], ?_⟩
  have := populationBefore_succ cs i cs[i] (by simp [hi])
  omega

theorem nonneg_applyDivisionDeath (cs : List Clone) (hnn : ∀ c ∈ cs, 0 ≤ c.n)
    (dy re : Option Nat) (hdy : ∀ i, dy = some i → ∃ c, cs[i]? = some c ∧ 0 < c.n) :
    ∀ c ∈ applyDivisionDeath cs dy re, 0 ≤ c.n := by
  cases dy with
  | none => simpa [applyDivisionDeath] using hnn
  | some a =>
    cases re with
    | none => simpa [applyDivisionDeath] using hnn
    | some b =>
      simp only [applyDivisionDeath]
      obtain ⟨ca, hca, hpos⟩ := hdy a rfl
      have h1 : ∀ c ∈ adjN (-1) cs a, 0 ≤ c.n := by
        apply adjN_nonneg _ _ _ hnn
        intro c hc
        rw [hca] at hc
        simp only [Option.some.injEq] at hc
        subst hc
        omega
      apply adjN_nonneg _ _ _ h1
      intro c hc
      have := nonneg_of_getElem? h1 hc
      omega

theorem nonneg_divisionDeathEvent (P : Params) (st : SimState) (dr : Draws)
    (hnn : ∀ c ∈ st.clones, 0 ≤ c.n) : ∀ c ∈ (divisionDeathEvent P st dr).clones, 0 ≤ c.n :=
  nonneg_applyDivisionDeath st.clones hnn _ _ (fun i hi => dyingIdx_active P st.clones dr i hi)

theorem nonneg_mutationEvent (P : Params) (st : SimState) (dr : Draws)
    (hnn : ∀ c ∈ st.clones, 0 ≤ c.n) (hpos : 1 ≤ dr.random_cell_pos) :
    ∀ c ∈ (mutationEvent P st dr).clones, 0 ≤ c.n := by
  unfold mutationEvent
  cases h : selectParent st.clones dr.random_cell_pos with
  | none => exact hnn
  | some i =>
    obtain ⟨ci, hci, hn⟩ := selectParent_active st.clones hnn _ hpos i h
    have h1 : ∀ c ∈ adjN (-1) st.clones i, 0 ≤ c.n := by
      apply adjN_nonneg _ _ _ hnn
      intro c hc
      rw [hci] at hc
      simp only [Option.some.injEq] at hc
      subst hc
      omega
    simp only [applyMutation_eq P.p st i dr.u_type ci hci]
    intro c hc
    split at hc
    · simp only [List.mem_append, List.mem_singleton] at hc
      rcases hc with hc | hc
      · exact h1 c hc
      · subst hc; simp
    · simp only [List.mem_append, List.mem_singleton] at hc
      rcases hc with hc | hc
      · exact h1 c hc
      · subst hc; simp

theorem nonneg_applyEvent (P : Params) (st : SimState) (dr : Draws)
    (hnn : ∀ c ∈ st.clones, 0 ≤ c.n) (hpos : 1 ≤ dr.random_cell_pos) :
    ∀ c ∈ (applyEvent P st dr).clones, 0 ≤ c.n := by
  unfold applyEvent
  split
  · exact nonneg_divisionDeathEvent P st dr hnn
  · exact nonneg_mutationEvent P st dr hnn hpos

theorem nonneg_iteration (P : Params) (st : SimState) (dr : Draws)
    (hnn : ∀ c ∈ st.clones, 0 ≤ c.n) (hpos : 1 ≤ dr.random_cell_pos) :
    ∀ c ∈ (iteration P st dr).state.clones, 0 ≤ c.n := by
  rcases iteration_state_cases P st dr with h | h <;> rw [h]
  · exact hnn
  · exact nonneg_applyEvent P _ dr hnn hpos

theorem nonneg_of_reachableBy (P : Params) (hN : 0 ≤ P.Ntot) (ok : Draws → Prop)
    (hok : ∀ dr, ok dr → 1 ≤ dr.random_cell_pos) (st : SimState)
    (h : ReachableBy ok P st) : ∀ c ∈ st.clones, 0 ≤ c.n := by
  induction h with
  | init => simpa [initState] using hN
  | step st dr _ _ hdr ih => exact nonneg_iteration P st dr ih (hok dr hdr)

theorem ReachableBy.mono {ok ok' : Draws → Prop} (hok : ∀ dr, ok dr → ok' dr) {P : Params}
    {st : SimState} (h : ReachableBy ok P st) : ReachableBy ok' P st := by
  induction h with
  | init => exact ReachableBy.init
  | step st dr _ ht hdr ih => exact ReachableBy.step st dr ih ht (hok dr hdr)

/-- Claim C2 (non-negative populations): for `Ntot ≥ 0`, in every state
reachable from `[{0, 0, Ntot}]` under either regime, the cell indices being
values `≥ 1` as `cell_dist(1, Ntot)` returns them and all other draws
arbitrary, every clone has `n ≥ 0`; and in such a state the dying clone of a
Division/Death event and the parent clone of a Mutation event have `n ≥ 1`. -/
theorem populations_nonneg (P : Params) (hN : 0 ≤ P.Ntot) (st : SimState)
    (h : ReachableBy (fun dr => 1 ≤ dr.random_cell_pos) P st) :
    (∀ c ∈ st.clones, 0 ≤ c.n) ∧
    (∀ dr : Draws, 1 ≤ dr.random_cell_pos →
      (∀ i, dyingIdx P st.clones dr = some i → ∃ c, st.clones[i]? = some c ∧ 1 ≤ c.n) ∧
      (∀ i, selectParent st.clones dr.random_cell_pos = some i →
        ∃ c, st.clones[i]? = some c ∧ 1 ≤ c.n)) := by
  have hnn := nonneg_of_reachableBy P hN _ (fun _ hdr => hdr) st h
  refine ⟨hnn, fun dr hdr => ⟨fun i hi => ?_, fun i hi => ?_⟩⟩
  · obtain ⟨c, hc, hpos⟩ := dyingIdx_active P st.clones dr i hi
    exact ⟨c, hc, by omega⟩
  · exact selectParent_active st.clones hnn _ hdr i hi

/-! ## Mutation counters and registry length -/

theorem applyDivisionDeath_length (cs : List Clone) (dy re : Option Nat) :
    (applyDivisionDeath cs dy re).length = cs.length := by
  cases dy <;> cases re <;> simp [applyDivisionDeath, adjN_length]

theorem counters_mutationEvent (P : Params) (st : SimState) (dr : Draws) :
    (mutationEvent P st dr).cumulative_drivers + (mutationEvent P st dr).cumulative_passengers
        - ((mutationEvent P st dr).clones.length : Int)
      = st.cumulative_drivers + st.cumulative_passengers - (st.clones.length : Int) ∧
    st.cumulative_drivers ≤ (mutationEvent P st dr).cumulative_drivers ∧
    st.cumulative_passengers ≤ (mutationEvent P st dr).cumulative_passengers := by
  unfold mutationEvent
  cases h : selectParent st.clones dr.random_cell_pos with
  | none => simp
  | some i =>
    have hi := selectParent_lt _ _ _ h
    obtain ⟨c, hc⟩ : ∃ c, st.clones[i]? = some c := ⟨st.clones[i], by simp [hi]⟩
    simp only [applyMutation_eq P.p st i dr.u_type c hc]
    split
    · simp only [List.length_append, adjN_length, List.length_singleton]
      push_cast
      refine ⟨by ring, by omega, le_refl _⟩
    · simp only [List.length_append, adjN_length, List.length_singleton]
      push_cast
      refine ⟨by ring, le_refl _, by omega⟩

theorem counters_applyEvent (P : Params) (st : SimState) (dr : Draws) :
    (applyEvent P st dr).cumulative_drivers + (applyEvent P st dr).cumulative_passengers
        - ((applyEvent P st dr).clones.length : Int)
      = st.cumulative_drivers + st.cumulative_passengers - (st.clones.length : Int) ∧
    st.cumulative_drivers ≤ (applyEvent P st dr).cumulative_drivers ∧
    st.cumulative_passengers ≤ (applyEvent P st dr).cumulative_passengers := by
  unfold applyEvent
  split
  · simp [divisionDeathEvent, applyDivisionDeath_length]
  · exact counters_mutationEvent P st dr

theorem counters_iteration (P : Params) (st : SimState) (dr : Draws) :
    (iteration P st dr).state.cumulative_drivers
        + (iteration P st dr).state.cumulative_passengers
        - ((iteration P st dr).state.clones.length : Int)
      = st.cumulative_drivers + st.cumulative_passengers - (st.clones.length : Int) ∧
    st.cumulative_drivers ≤ (iteration P st dr).state.cumulative_drivers ∧
    st.cumulative_passengers ≤ (iteration P st dr).state.cumulative_passengers := by
  rcases iteration_state_cases P st dr with h | h <;> rw [h]
  · simp
  · exact counters_applyEvent P _ dr

/-- Claim C3 (mutation counters): in every state reachable from the initial
state, `cumulative_drivers + cumulative_passengers = clones.size() - 1`, and
a loop iteration from that state, whatever its draws, leaves each of the two
counters at least as large as it was. -/
theorem mutation_counters (P : Params) (st : SimState) (h : Reachable P st) :
    st.cumulative_drivers + st.cumulative_passengers = (st.clones.length : Int) - 1 ∧
    ∀ dr : Draws,
      st.cumulative_drivers ≤ (iteration P st dr).state.cumulative_drivers ∧
      st.cumulative_passengers ≤ (iteration P st dr).state.cumulative_passengers := by
  refine ⟨?_, fun dr => (counters_iteration P st dr).2⟩
  induction h with
  | init => simp [initState]
  | step st dr _ _ _ ih =>
    have := (counters_iteration P st dr).1
    omega

/-- Claim C4 (mutation applier): when parent selection returns index `i`, a
Mutation event decrements `clones[i].n` by exactly one, appends one clone of
population 1, leaves the time and every other clone unchanged, and the new
clone is `(k_i + 1, l_i)` with `cumulative_drivers` increased by one (the
passenger counter unchanged) when `u < p`, and `(k_i, l_i + 1)` with
`cumulative_passengers` increased by one (the driver counter unchanged) when
`u ≥ p`. -/
theorem mutation_applier (P : Params) (st : SimState) (dr : Draws) (i : Nat)
    (hsel : selectParent st.clones dr.random_cell_pos = some i) :
    ∃ c, st.clones[i]? = some c ∧
      (mutationEvent P st dr).clones.length = st.clones.length + 1 ∧
      (mutationEvent P st dr).clones[i]? = some { k := c.k, l := c.l, n := c.n - 1 } ∧
      (∀ j, j < st.clones.length → j ≠ i →
        (mutationEvent P st dr).clones[j]? = st.clones[j]?) ∧
      (mutationEvent P st dr).t = st.t ∧
      (dr.u_type < P.p →
        (mutationEvent P st dr).clones[st.clones.length]?
            = some { k := c.k + 1, l := c.l, n := 1 } ∧
        (mutationEvent P st dr).cumulative_drivers = st.cumulative_drivers + 1 ∧
        (mutationEvent P st dr).cumulative_passengers = st.cumulative_passengers) ∧
      (P.p ≤ dr.u_type →
        (mutationEvent P st dr).clones[st.clones.length]?
            = some { k := c.k, l := c.l + 1, n := 1 } ∧
        (mutationEvent P st dr).cumulative_passengers = st.cumulative_passengers + 1 ∧
        (mutationEvent P st dr).cumulative_drivers = st.cumulative_drivers) := by
  have hi := selectParent_lt _ _ _ hsel
  have hc : st.clones[i]? = some st.clones[i] := by simp [hi]
  have hlen : (adjN (-1) st.clones i).length = st.clones.length := adjN_length _ _ _
  have hself : (adjN (-1) st.clones i)[i]? =
      some { k := st.clones[i].k, l := st.clones[i].l, n := st.clones[i].n - 1 } := by
    rw [adjN_getElem?_self, hc]; rfl
  refine ⟨st.clones[i], hc, ?_⟩
  simp only [mutationEvent, hsel, applyMutation_eq P.p st i dr.u_type _ hc]
  by_cases hu : dr.u_type < P.p
  · simp only [hu, if_true]
    refine ⟨by simp [hlen], ?_, ?_, trivial, ?_, ?_⟩
    · rw [List.getElem?_append_left (by omega)]; exact hself
    · intro j hj hji
      rw [List.getElem?_append_left (by omega)]
      exact adjN_getElem?_ne _ _ _ _ hji
    · intro _
      refine ⟨?_, trivial, trivial⟩
      rw [List.getElem?_append_right (by omega)]
      simp [hlen]
    · intro hp
      exact absurd hu (not_lt.mpr hp)
  · simp only [hu, if_false]
    refine ⟨by simp [hlen], ?_, ?_, trivial, ?_, ?_⟩
    · rw [List.getElem?_append_left (by omega)]; exact hself
    · intro j hj hji
      rw [List.getElem?_append_left (by omega)]
      exact adjN_getElem?_ne _ _ _ _ hji
    · intro hp
      exact False.elim hp
    · intro _
      refine ⟨?_, trivial, trivial⟩
      rw [List.getElem?_append_right (by omega)]
      simp [hlen]

/-! ## Uniform cell selection -/

/-- Claim C5 (uniform cell selection returns the containing clone): in a
registry with non-negative populations summing to `Ntot`, for every cell
index `c` with `1 ≤ c ≤ Ntot` the mutation-parent walk and the regime-B death
walk both return an index `i` of the registry, with
`sum_{j<i} n_j < c ≤ sum_{j≤i} n_j`, and the selected clone has `n_i ≥ 1`. -/
theorem uniform_selection_contains (clones : List Clone) (Ntot : Int) (c : Int)
    (hnn : ∀ cl ∈ clones, 0 ≤ cl.n) (hsum : totalPopulation clones = Ntot)
    (hc1 : 1 ≤ c) (hc2 : c ≤ Ntot) :
    ∃ i cl, selectParent clones c = some i ∧ selectDeathB clones c = some i ∧
      clones[i]? = some cl ∧
      populationBefore clones i < c ∧ c ≤ populationBefore clones (i + 1) ∧
      populationBefore clones (i + 1) = populationBefore clones i + cl.n ∧ 1 ≤ cl.n := by
  obtain ⟨i, hi⟩ := parentWalk_exists c clones 0 0 (by omega) (by omega)
  have hi' : selectParent clones c = some i := hi
  obtain ⟨hlt, hlo, hhi⟩ := (selectParent_iff clones hnn c hc1 i).mp hi'
  have hget : clones[i]? = some clones[i] := by simp [hlt]
  have hsucc := populationBefore_succ clones i clones[i] hget
  refine ⟨i, clones[i], hi', ?_, hget, hlo, hhi, hsucc, by omega⟩
  rw [selectDeathB_eq_selectParent clones hnn c hc1]
  exact hi'

theorem selectParent_filter_eq (clones : List Clone) (Ntot : Int)
    (hnn : ∀ cl ∈ clones, 0 ≤ cl.n) (hsum : totalPopulation clones = Ntot)
    (i : Nat) (hi : i < clones.length) :
    (Finset.Icc 1 Ntot).filter (fun c => selectParent clones c = some i) =
      Finset.Ioc (populationBefore clones i) (populationBefore clones (i + 1)) := by
  ext c
  simp only [Finset.mem_filter, Finset.mem_Icc, Finset.mem_Ioc]
  constructor
  · rintro ⟨⟨h1, _⟩, hsel⟩
    obtain ⟨_, hlo, hhi⟩ := (selectParent_iff clones hnn c h1 i).mp hsel
    exact ⟨hlo, hhi⟩
  · rintro ⟨hlo, hhi⟩
    have h0 := populationBefore_nonneg clones hnn i
    have hle := populationBefore_le_total clones hnn (i + 1)
    have h1 : 1 ≤ c := by omega
    exact ⟨⟨h1, by omega⟩, (selectParent_iff clones hnn c h1 i).mpr ⟨hi, hlo, hhi⟩⟩

/-- Claim C6 (uniform cell selection is proportional to population): in a
registry with non-negative populations summing to `Ntot`, for every clone
index `i` the number of cell indices `c` of `[1, Ntot]` for which the
mutation-parent walk (resp. the regime-B death walk) returns `i` is exactly
`clones[i].n`; the count involves neither `k`, `l`, `s` nor `d`. -/
theorem uniform_selection_count (clones : List Clone) (Ntot : Int)
    (hnn : ∀ cl ∈ clones, 0 ≤ cl.n) (hsum : totalPopulation clones = Ntot)
    (i : Nat) (cl : Clone) (hi : clones[i]? = some cl) :
    (((Finset.Icc 1 Ntot).filter (fun c => selectParent clones c = some i)).card : Int)
        = cl.n ∧
    (((Finset.Icc 1 Ntot).filter (fun c => selectDeathB clones c = some i)).card : Int)
        = cl.n := by
  have hlt := lt_length_of_getElem? hi
  have hcard : (((Finset.Icc 1 Ntot).filter
      (fun c => selectParent clones c = some i)).card : Int) = cl.n := by
    rw [selectParent_filter_eq clones Ntot hnn hsum i hlt, Int.card_Ioc,
      populationBefore_succ clones i cl hi]
    have := nonneg_of_getElem? hnn hi
    rw [Int.toNat_of_nonneg (by omega)]
    ring
  refine ⟨hcard, ?_⟩
  have hcongr : (Finset.Icc 1 Ntot).filter (fun c => selectDeathB clones c = some i) =
      (Finset.Icc 1 Ntot).filter (fun c => selectParent clones c = some i) := by
    apply Finset.filter_congr
    intro c hc
    rw [Finset.mem_Icc] at hc
    rw [selectDeathB_eq_selectParent clones hnn c hc.1]
  rw [hcongr]
  exact hcard

/-! ## Proportional clone selection -/

theorem propensityBefore_succ (s d : ℚ) (cs : List Clone) (j : Nat) (c : Clone)
    (h : cs[j]? = some c) :
    propensityBefore s d cs (j + 1) =
      propensityBefore s d cs j + (if 0 < c.n then propensity s d c else 0) := by
  induction cs generalizing j with
  | nil => simp at h
  | cons a cs ih =>
    cases j with
    | zero =>
      simp only [List.getElem?_cons_zero, Option.some.injEq] at h
      subst h
      rw [propensityBefore_cons_succ, propensityBefore_zero, propensityBefore_zero]
      ring
    | succ j =>
      rw [propensityBefore_cons_succ, propensityBefore_cons_succ, ih j (by simpa using h)]
      ring

theorem propensityBefore_mono (s d : ℚ) (cs : List Clone)
    (hpos : ∀ c ∈ cs, 0 < c.n → 0 < propensity s d c) (j j' : Nat) (h : j ≤ j') :
    propensityBefore s d cs j ≤ propensityBefore s d cs j' := by
  induction cs generalizing j j' with
  | nil => simp [propensityBefore]
  | cons c cs ih =>
    have hpos' : ∀ c' ∈ cs, 0 < c'.n → 0 < propensity s d c' :=
      fun c' hc' => hpos c' (List.mem_cons_of_mem _ hc')
    cases j with
    | zero =>
      rw [propensityBefore_zero]
      exact propensityBefore_nonneg s d _ hpos _
    | succ j =>
      cases j' with
      | zero => omega
      | succ j' =>
        rw [propensityBefore_cons_succ, propensityBefore_cons_succ]
        have := ih hpos' j j' (by omega)
        linarith

theorem propensityBefore_le_total (s d : ℚ) (cs : List Clone)
    (hpos : ∀ c ∈ cs, 0 < c.n → 0 < propensity s d c) (j : Nat) :
    propensityBefore s d cs j ≤ totalDivisionPropensity s d cs := by
  rw [totalDivisionPropensity_eq, ← propensityBefore_length]
  by_cases h : j ≤ cs.length
  · exact propensityBefore_mono s d cs hpos _ _ h
  · have e : propensityBefore s d cs j = propensityBefore s d cs cs.length := by
      simp only [propensityBefore]
      rw [List.take_of_length_le (by omega), List.take_of_length_le (le_refl _)]
    rw [e]

theorem proportionalSelect_iff (s d : ℚ) (cs : List Clone)
    (hpos : ∀ c ∈ cs, 0 < c.n → 0 < propensity s d c) (r : ℚ) (h0 : 0 ≤ r) (i : Nat) :
    proportionalSelect s d cs r = some i ↔
      ∃ c, cs[i]? = some c ∧ 0 < c.n ∧
        propensityBefore s d cs i ≤ r ∧ r < propensityBefore s d cs (i + 1) := by
  rw [proportionalSelect_eq, rouletteWalk_active_iff s d r cs hpos 0 0 h0 i]
  constructor
  · rintro ⟨j, c, hi, hj, hc, hlo, hhi⟩
    have : i = j := by omega
    subst this
    exact ⟨c, hj, hc, by linarith, by linarith⟩
  · rintro ⟨c, hj, hc, hlo, hhi⟩
    exact ⟨i, c, by omega, hj, hc, by linarith, by linarith⟩

/-- Claim C7 (proportional clone selection): when every active clone has a
positive division propensity and `0 ≤ r < totalDivisionPropensity`, the
roulette wheel returns a registry index `i`; clone `i` has `n > 0`, its
cumulative propensity exceeds `r`, and no active clone before it has a
cumulative propensity exceeding `r`. Moreover, for each active clone `j` the
draws `r' ≥ 0` that select `j` are exactly those of the half-open interval
that starts at the cumulative propensity of the active clones before `j`
and has length the propensity of `j`, an interval inside
`[0, totalDivisionPropensity)`. -/
theorem proportional_selection (s d : ℚ) (clones : List Clone)
    (hpos : ∀ c ∈ clones, 0 < c.n → 0 < propensity s d c) (r : ℚ) (h0 : 0 ≤ r)
    (h1 : r < totalDivisionPropensity s d clones) :
    (∃ i c, proportionalSelect s d clones r = some i ∧ clones[i]? = some c ∧ 0 < c.n ∧
        r < propensityBefore s d clones (i + 1) ∧
        ∀ j cj, j < i → clones[j]? = some cj → 0 < cj.n →
          propensityBefore s d clones (j + 1) ≤ r) ∧
    (∀ j cj, clones[j]? = some cj → 0 < cj.n →
        0 ≤ propensityBefore s d clones j ∧
        propensityBefore s d clones j + propensity s d cj
          ≤ totalDivisionPropensity s d clones ∧
        ∀ r' : ℚ, 0 ≤ r' →
          (proportionalSelect s d clones r' = some j ↔
            propensityBefore s d clones j ≤ r' ∧
              r' < propensityBefore s d clones j + propensity s d cj)) := by
  constructor
  · obtain ⟨i, hi⟩ := proportionalSelect_exists s d clones r h0 h1
    obtain ⟨c, hc, hcn, hlo, hhi⟩ := (proportionalSelect_iff s d clones hpos r h0 i).mp hi
    refine ⟨i, c, hi, hc, hcn, hhi, ?_⟩
    intro j cj hj _ _
    exact le_trans (propensityBefore_mono s d clones hpos (j + 1) i (by omega)) hlo
  · intro j cj hj hcj
    have hsucc := propensityBefore_succ s d clones j cj hj
    simp only [hcj, if_true] at hsucc
    refine ⟨propensityBefore_nonneg s d clones hpos j, ?_, ?_⟩
    · rw [← hsucc]
      exact propensityBefore_le_total s d clones hpos (j + 1)
    · intro r' h0'
      rw [proportionalSelect_iff s d clones hpos r' h0' j, ← hsucc]
      constructor
      · rintro ⟨c, _, _, hlo, hhi⟩
        exact ⟨hlo, hhi⟩
      · rintro ⟨hlo, hhi⟩
        exact ⟨cj, hj, hcj, hlo, hhi⟩

/-! ## Extinct clones -/

theorem filter_active_eraseIdx (cs : List Clone) (i : Nat) (c : Clone)
    (hi : cs[i]? = some c) (hc : ¬ 0 < c.n) :
    (cs.eraseIdx i).filter (fun c => decide (c.n > 0)) =
      cs.filter (fun c => decide (c.n > 0)) := by
  induction cs generalizing i with
  | nil => simp
  | cons a cs ih =>
    cases i with
    | zero =>
      simp only [List.getElem?_cons_zero, Option.some.injEq] at hi
      subst hi
      simp [hc]
    | succ i =>
      have := ih i (by simpa using hi)
      simp only [List.eraseIdx_cons_succ, List.filter_cons, this]

theorem applyDivisionDeath_getElem?_ne (cs : List Clone) (dy re : Option Nat) (j : Nat)
    (hdy : dy ≠ some j) (hre : re ≠ some j) :
    (applyDivisionDeath cs dy re)[j]? = cs[j]? := by
  cases dy with
  | none => simp [applyDivisionDeath]
  | some a =>
    cases re with
    | none => simp [applyDivisionDeath]
    | some b =>
      simp only [applyDivisionDeath]
      have ha : j ≠ a := fun e => hdy (by rw [e])
      have hb : j ≠ b := fun e => hre (by rw [e])
      rw [adjN_getElem?_ne _ _ _ _ hb, adjN_getElem?_ne _ _ _ _ ha]

theorem extinct_divisionDeathEvent (P : Params) (st : SimState) (dr : Draws) (i : Nat)
    (c : Clone) (hi : st.clones[i]? = some c) (hc : c.n = 0) :
    (divisionDeathEvent P st dr).clones[i]? = some c := by
  simp only [divisionDeathEvent]
  rw [applyDivisionDeath_getElem?_ne _ _ _ _ _ _, hi]
  · intro h
    obtain ⟨c', hc', hpos⟩ := dyingIdx_active P st.clones dr i h
    rw [hi] at hc'
    simp only [Option.some.injEq] at hc'
    subst hc'
    omega
  · intro h
    obtain ⟨c', hc', hpos⟩ := reproducingIdx_active P st.clones dr i h
    rw [hi] at hc'
    simp only [Option.some.injEq] at hc'
    subst hc'
    omega

theorem selectParent_ne_of_extinct (cs : List Clone) (hnn : ∀ c ∈ cs, 0 ≤ c.n) (pos : Int)
    (hpos : 1 ≤ pos) (i : Nat) (c : Clone) (hi : cs[i]? = some c) (hc : c.n = 0) :
    selectParent cs pos ≠ some i := by
  intro h
  obtain ⟨c', hc', hn⟩ := selectParent_active cs hnn pos hpos i h
  rw [hi] at hc'
  simp only [Option.some.injEq] at hc'
  subst hc'
  omega

theorem extinct_mutationEvent (P : Params) (st : SimState) (dr : Draws)
    (hnn : ∀ c ∈ st.clones, 0 ≤ c.n) (hpos : 1 ≤ dr.random_cell_pos) (i : Nat)
    (c : Clone) (hi : st.clones[i]? = some c) (hc : c.n = 0) :
    (mutationEvent P st dr).clones[i]? = some c := by
  have hne := selectParent_ne_of_extinct st.clones hnn _ hpos i c hi hc
  have hlt := lt_length_of_getElem? hi
  unfold mutationEvent
  cases h : selectParent st.clones dr.random_cell_pos with
  | none => exact hi
  | some a =>
    have ha : i ≠ a := fun e => hne (by rw [h, e])
    have hal := selectParent_lt _ _ _ h
    simp only [applyMutation_eq P.p st a dr.u_type _
      (show st.clones[a]? = some st.clones[a] by simp [hal])]
    split
    · rw [List.getElem?_append_left (by rw [adjN_length]; exact hlt),
        adjN_getElem?_ne _ _ _ _ ha, hi]
    · rw [List.getElem?_append_left (by rw [adjN_length]; exact hlt),
        adjN_getElem?_ne _ _ _ _ ha, hi]

theorem extinct_applyEvent (P : Params) (st : SimState) (dr : Draws)
    (hnn : ∀ c ∈ st.clones, 0 ≤ c.n) (hpos : 1 ≤ dr.random_cell_pos) (i : Nat)
    (c : Clone) (hi : st.clones[i]? = some c) (hc : c.n = 0) :
    (applyEvent P st dr).clones[i]? = some c := by
  unfold applyEvent
  split
  · exact extinct_divisionDeathEvent P st dr i c hi hc
  · exact extinct_mutationEvent P st dr hnn hpos i c hi hc

/-- Claim C8 (extinction accounting): in every state reachable from the
initial registry (`Ntot ≥ 0`, either regime, cell indices `≥ 1` as
`cell_dist(1, Ntot)` returns them, all other draws arbitrary), a clone `i`
with `n = 0` is not among `active_clone_indices`, adds nothing to
`total_division_propensity` (the total is that of the registry without it),
is returned neither by proportional selection for any `r` nor by either
uniform cell walk for any cell index `≥ 1`, is not counted in `ActiveClones`;
and after a Division/Death event, a Mutation event, the applied event or a
whole loop iteration, entry `i` of the registry is still the same clone,
with `n = 0`. -/
theorem extinction_accounting (P : Params) (hN : 0 ≤ P.Ntot) (st : SimState)
    (h : ReachableBy (fun dr => 1 ≤ dr.random_cell_pos) P st) (i : Nat) (c : Clone)
    (hi : st.clones[i]? = some c) (hc : c.n = 0) :
    i ∉ (computePropensities P.s P.d st.clones).active_clone_indices ∧
    totalDivisionPropensity P.s P.d st.clones
      = totalDivisionPropensity P.s P.d (st.clones.eraseIdx i) ∧
    (∀ r : ℚ, proportionalSelect P.s P.d st.clones r ≠ some i) ∧
    (∀ pos : Int, 1 ≤ pos →
      selectParent st.clones pos ≠ some i ∧ selectDeathB st.clones pos ≠ some i) ∧
    activeClonesCount st.clones = activeClonesCount (st.clones.eraseIdx i) ∧
    (∀ dr : Draws, 1 ≤ dr.random_cell_pos →
      (divisionDeathEvent P st dr).clones[i]? = some c ∧
      (mutationEvent P st dr).clones[i]? = some c ∧
      (applyEvent P st dr).clones[i]? = some c ∧
      (iteration P st dr).state.clones[i]? = some c) := by
  have hnn := nonneg_of_reachableBy P hN _ (fun _ hdr => hdr) st h
  have hnot : ¬ 0 < c.n := by omega
  have hfilter := filter_active_eraseIdx st.clones i c hi hnot
  refine ⟨?_, ?_, ?_, ?_, ?_, ?_⟩
  · rw [computePropensities_eq]
    intro hmem
    obtain ⟨j, c', hj, hc', hpos⟩ := (mem_activeIndicesFrom st.clones 0 i).mp hmem
    have : i = j := by omega
    subst this
    rw [hi] at hc'
    simp only [Option.some.injEq] at hc'
    subst hc'
    exact hnot hpos
  · rw [totalDivisionPropensity_eq, totalDivisionPropensity_eq]
    simp only [activePropensities, hfilter]
  · intro r hsel
    obtain ⟨c', hc', hpos⟩ := proportionalSelect_active _ _ _ _ _ hsel
    rw [hi] at hc'
    simp only [Option.some.injEq] at hc'
    subst hc'
    exact hnot hpos
  · intro pos hpos
    have h1 := selectParent_ne_of_extinct st.clones hnn pos hpos i c hi hc
    refine ⟨h1, ?_⟩
    rw [selectDeathB_eq_selectParent st.clones hnn pos hpos]
    exact h1
  · simp only [activeClonesCount, List.countP_eq_length_filter, hfilter]
  · intro dr hdr
    refine ⟨extinct_divisionDeathEvent P st dr i c hi hc,
      extinct_mutationEvent P st dr hnn hdr i c hi hc,
      extinct_applyEvent P st dr hnn hdr i c hi hc, ?_⟩
    rcases iteration_state_cases P st dr with he | he <;> rw [he]
    · exact hi
    · exact extinct_applyEvent P { st with t := st.t + dr.dt } dr hnn hdr i c hi hc

/-! ## Time and the horizon -/

theorem divisionDeathEvent_t (P : Params) (st : SimState) (dr : Draws) :
    (divisionDeathEvent P st dr).t = st.t := rfl

theorem mutationEvent_t (P : Params) (st : SimState) (dr : Draws) :
    (mutationEvent P st dr).t = st.t := by
  unfold mutationEvent
  cases selectParent st.clones dr.random_cell_pos with
  | none => rfl
  | some i =>
    simp only [applyMutation]
    split
    · rfl
    · split <;> rfl

theorem applyEvent_t (P : Params) (st : SimState) (dr : Draws) :
    (applyEvent P st dr).t = st.t := by
  unfold applyEvent
  split
  · exact divisionDeathEvent_t P st dr
  · exact mutationEvent_t P st dr

theorem runLoop_cons (P : Params) (st : SimState) (dr : Draws) (rest : List Draws) :
    runLoop P st (dr :: rest) =
      if st.t < P.tmax ∧ st.t + dr.dt < P.tmax then
        recordRow (applyEvent P { st with t := st.t + dr.dt } dr) ::
          runLoop P (applyEvent P { st with t := st.t + dr.dt } dr) rest
      else [] := by
  by_cases h1 : st.t < P.tmax
  · by_cases h2 : st.t + dr.dt < P.tmax
    · have h3 : ¬ st.t + dr.dt ≥ P.tmax := not_le.mpr h2
      simp [runLoop, iteration, h1, h2, h3]
    · have h3 : st.t + dr.dt ≥ P.tmax := not_lt.mp h2
      simp [runLoop, iteration, h1, h2, h3]
  · simp [runLoop, h1]

theorem runLoop_times (P : Params) (draws : List Draws) (st : SimState)
    (hdt : ∀ dr ∈ draws, 0 ≤ dr.dt) :
    (∀ row ∈ runLoop P st draws, st.t ≤ row.time ∧ row.time < P.tmax) ∧
    ((runLoop P st draws).map Row.time).Pairwise (fun a b => a ≤ b) := by
  induction draws generalizing st with
  | nil => simp [runLoop]
  | cons dr rest ih =>
    have hdr : 0 ≤ dr.dt := hdt dr (List.mem_cons_self _ _)
    have hrest : ∀ dr' ∈ rest, 0 ≤ dr'.dt := fun dr' h => hdt dr' (List.mem_cons_of_mem _ h)
    rw [runLoop_cons]
    by_cases hcond : st.t < P.tmax ∧ st.t + dr.dt < P.tmax
    · simp only [hcond, and_self, if_true]
      obtain ⟨ih1, ih2⟩ := ih (applyEvent P { st with t := st.t + dr.dt } dr) hrest
      have ht : (applyEvent P { st with t := st.t + dr.dt } dr).t = st.t + dr.dt :=
        applyEvent_t P _ dr
      have hrow : (recordRow (applyEvent P { st with t := st.t + dr.dt } dr)).time
          = st.t + dr.dt := ht
      rw [ht] at ih1
      refine ⟨?_, ?_⟩
      · intro row hrow'
        rcases List.mem_cons.mp hrow' with h | h
        · subst h
          rw [hrow]
          exact ⟨by linarith, hcond.2⟩
        · obtain ⟨a, b⟩ := ih1 row h
          exact ⟨by linarith, b⟩
      · simp only [List.map_cons, List.pairwise_cons]
        refine ⟨?_, ih2⟩
        intro b hb
        obtain ⟨row, hrow', rfl⟩ := List.mem_map.mp hb
        rw [hrow]
        exact (ih1 row hrow').1
    · simp [hcond]

/-- Claim C9, as amended (monotonic time): when every waiting time is
`≥ 0`, the recorded `time` values start at 0 and are non-decreasing
(consecutive values may be equal); every row after the initial row has
`time < tmax`, and so has every row, the last one included, when
`tmax > 0`. -/
theorem monotonic_time (P : Params) (draws : List Draws) (hdt : ∀ dr ∈ draws, 0 ≤ dr.dt) :
    ((run P draws).map Row.time).head? = some 0 ∧
    ((run P draws).map Row.time).Pairwise (fun a b => a ≤ b) ∧
    (∀ row ∈ (run P draws).tail, row.time < P.tmax) ∧
    (0 < P.tmax → ∀ row ∈ run P draws, row.time < P.tmax) := by
  obtain ⟨h1, h2⟩ := runLoop_times P draws (initState P) hdt
  have h0 : (initialRow P).time = 0 := rfl
  have ht0 : (initState P).t = 0 := rfl
  rw [ht0] at h1
  refine ⟨by simp [run, h0], ?_, ?_, ?_⟩
  · simp only [run, List.map_cons, List.pairwise_cons, h0]
    refine ⟨?_, h2⟩
    intro b hb
    obtain ⟨row, hrow, rfl⟩ := List.mem_map.mp hb
    exact (h1 row hrow).1
  · intro row hrow
    exact (h1 row (by simpa [run] using hrow)).2
  · intro hpos row hrow
    simp only [run, List.mem_cons] at hrow
    rcases hrow with h | h
    · rw [h, h0]; exact hpos
    · exact (h1 row h).2

/-- Claim C1 at a concrete input: a Mutation event applied to the initial registry of three cells keeps the population sum at 3. -/
theorem population_conservation_witness :
    totalPopulation (initState exampleParams).clones = exampleParams.Ntot ∧
    totalPopulation
      (applyEvent exampleParams (initState exampleParams) exampleDrawsMutation).clones
        = exampleParams.Ntot :=
  ⟨by decide,
    ((population_conservation exampleParams).1 (initState exampleParams)
      exampleDrawsMutation (by decide)).2.2⟩

/-- Claim C2 at a concrete input: after a first Mutation iteration from three cells every clone has a non-negative population. -/
theorem populations_nonneg_witness :
    0 ≤ exampleParams.Ntot ∧
    ∀ c ∈ (iteration exampleParams (initState exampleParams) exampleDrawsMutation).state.clones,
      0 ≤ c.n :=
  ⟨by decide,
    (populations_nonneg exampleParams (by decide) _
      (ReachableBy.step (initState exampleParams) exampleDrawsMutation ReachableBy.init
        (by norm_num [initState, exampleParams]) (by decide))).1⟩

/-- Claim C3 at a concrete input: after a first Mutation iteration the two counters sum to the registry length minus one. -/
theorem mutation_counters_witness :
    (iteration exampleParams (initState exampleParams)
        exampleDrawsMutation).state.cumulative_drivers
      + (iteration exampleParams (initState exampleParams)
        exampleDrawsMutation).state.cumulative_passengers
      = ((iteration exampleParams (initState exampleParams)
        exampleDrawsMutation).state.clones.length : Int) - 1 :=
  (mutation_counters exampleParams _
    (ReachableBy.step (initState exampleParams) exampleDrawsMutation ReachableBy.init
      (by norm_num [initState, exampleParams]) trivial)).1

/-- Claim C4 at a concrete input: cell 1 of the initial registry selects clone 0, and the Mutation event decrements it and appends one clone. -/
theorem mutation_applier_witness :
    selectParent (initState exampleParams).clones exampleDrawsMutation.random_cell_pos
        = some 0 ∧
    ∃ c, (initState exampleParams).clones[0]? = some c ∧
      (mutationEvent exampleParams (initState exampleParams) exampleDrawsMutation).clones.length
        = (initState exampleParams).clones.length + 1 ∧
      (mutationEvent exampleParams (initState exampleParams) exampleDrawsMutation).clones[0]?
        = some { k := c.k, l := c.l, n := c.n - 1 } := by
  refine ⟨by decide, ?_⟩
  obtain ⟨c, h1, h2, h3, _⟩ :=
    mutation_applier exampleParams (initState exampleParams) exampleDrawsMutation 0
      (by decide)
  exact ⟨c, h1, h2, h3⟩

/-- Claim C5 at a concrete input: cell 3 of the registry with populations 2, 0, 1 lies in the range of a clone with at least one cell. -/
theorem uniform_selection_contains_witness :
    ∃ i cl, selectParent exampleRegistry 3 = some i ∧ selectDeathB exampleRegistry 3 = some i ∧
      exampleRegistry[i]? = some cl ∧
      populationBefore exampleRegistry i < 3 ∧ 3 ≤ populationBefore exampleRegistry (i + 1) ∧
      populationBefore exampleRegistry (i + 1) = populationBefore exampleRegistry i + cl.n ∧
      1 ≤ cl.n :=
  uniform_selection_contains exampleRegistry 3 3 (by decide) (by decide) (by decide)
    (by decide)

/-- Claim C6 at a concrete input: exactly two of the three cell indices select clone 0 of the registry with populations 2, 0, 1. -/
theorem uniform_selection_count_witness :
    (((Finset.Icc 1 3).filter (fun c => selectParent exampleRegistry c = some 0)).card : Int)
        = 2 ∧
    (((Finset.Icc 1 3).filter (fun c => selectDeathB exampleRegistry c = some 0)).card : Int)
        = 2 :=
  uniform_selection_count exampleRegistry 3 (by decide) (by decide) 0
    { k := 0, l := 0, n := 2 } (by decide)

/-- Claim C7 at a concrete input: with `s = 1`, `d = 1/2` the draw `r = 2` selects an active clone of the registry with populations 2, 0, 1. -/
theorem proportional_selection_witness :
    (0 : ℚ) ≤ 2 ∧ (2 : ℚ) < totalDivisionPropensity 1 (1 / 2) exampleRegistry ∧
    ∃ i c, proportionalSelect 1 (1 / 2) exampleRegistry 2 = some i ∧
      exampleRegistry[i]? = some c ∧ 0 < c.n ∧
      (2 : ℚ) < propensityBefore 1 (1 / 2) exampleRegistry (i + 1) ∧
      ∀ j cj, j < i → exampleRegistry[j]? = some cj → 0 < cj.n →
        propensityBefore 1 (1 / 2) exampleRegistry (j + 1) ≤ 2 := by
  have hpos : ∀ c ∈ exampleRegistry, 0 < c.n → 0 < propensity 1 (1 / 2) c := by
    norm_num [exampleRegistry, propensity, fitness]
  have h1 : (2 : ℚ) < totalDivisionPropensity 1 (1 / 2) exampleRegistry := by
    norm_num [totalDivisionPropensity, computePropensities, propLoop, exampleRegistry,
      propensity, fitness]
  exact ⟨by norm_num, h1,
    (proportional_selection 1 (1 / 2) exampleRegistry hpos 2 (by norm_num) h1).1⟩

/-- Claim C8 at a concrete input: after a Mutation iteration from a single cell, clone 0 is extinct and stays so under every further event. -/
theorem extinction_accounting_witness :
    (iteration exampleParamsOne (initState exampleParamsOne)
        exampleDrawsMutation).state.clones[0]? = some { k := 0, l := 0, n := 0 } ∧
    ∀ dr : Draws, 1 ≤ dr.random_cell_pos →
      (applyEvent exampleParamsOne
        (iteration exampleParamsOne (initState exampleParamsOne) exampleDrawsMutation).state
        dr).clones[0]? = some { k := 0, l := 0, n := 0 } := by
  have hreach : ReachableBy (fun dr => 1 ≤ dr.random_cell_pos) exampleParamsOne
      (iteration exampleParamsOne (initState exampleParamsOne) exampleDrawsMutation).state :=
    ReachableBy.step (initState exampleParamsOne) exampleDrawsMutation ReachableBy.init
      (by norm_num [initState, exampleParamsOne]) (by decide)
  have hget : (iteration exampleParamsOne (initState exampleParamsOne)
      exampleDrawsMutation).state.clones[0]? = some { k := 0, l := 0, n := 0 } := by
    norm_num [iteration, Outcome.state, applyEvent, isDivisionDeath, totalDivisionPropensity,
      computePropensities, propLoop, propensity, fitness, mutationEvent, selectParent,
      parentWalk, applyMutation, adjN, initState, exampleParamsOne, exampleDrawsMutation]
  refine ⟨hget, fun dr hdr => ?_⟩
  exact ((extinction_accounting exampleParamsOne (by decide) _ hreach 0 _ hget rfl).2.2.2.2.2
    dr hdr).2.2.1

/-- Claim C9 as stated fails: a waiting time `dt = 0` (which satisfies `dt ≥ 0`) gives the recorded times `[0, 0]`, not strictly increasing; and with `tmax = 0` the only recorded time is `0`, not less than `tmax`. -/
theorem monotonic_time_counterexample :
    (∀ dr ∈ [exampleDrawsZeroWait], 0 ≤ dr.dt) ∧
    (run exampleParams [exampleDrawsZeroWait]).map Row.time = [0, 0] ∧
    ¬ ((run exampleParams [exampleDrawsZeroWait]).map Row.time).Pairwise (fun a b => a < b) ∧
    (run exampleParamsNoTime []).map Row.time = [0] ∧
    ¬ ((0 : ℚ) < exampleParamsNoTime.tmax) := by
  have h : (run exampleParams [exampleDrawsZeroWait]).map Row.time = [0, 0] := by
    rw [run, runLoop_cons]
    norm_num [runLoop, initialRow, initState, recordRow, applyEvent_t, exampleParams,
      exampleDrawsZeroWait]
  refine ⟨by simp [exampleDrawsZeroWait], h, ?_, ?_, ?_⟩
  · rw [h]; simp
  · simp [run, runLoop, initialRow, initState]
  · simp [exampleParamsNoTime]

/-- Claim C9, as amended, at a concrete input: the times of a two-iteration run are non-decreasing. -/
theorem monotonic_time_witness :
    (∀ dr ∈ [exampleDrawsDivision, exampleDrawsMutation], 0 ≤ dr.dt) ∧
    ((run exampleParams [exampleDrawsDivision, exampleDrawsMutation]).map Row.time).Pairwise
      (fun a b => a ≤ b) := by
  have hdt : ∀ dr ∈ [exampleDrawsDivision, exampleDrawsMutation], 0 ≤ dr.dt := by
    simp [exampleDrawsDivision, exampleDrawsMutation]
  exact ⟨hdt, (monotonic_time exampleParams _ hdt).2.1⟩

theorem KeepsMutationCounts.refl (cs : List Clone) : KeepsMutationCounts cs cs := by
  intro j c h
  exact ⟨c, h, rfl, rfl⟩

theorem KeepsMutationCounts.trans {cs cs' cs'' : List Clone}
    (h1 : KeepsMutationCounts cs cs') (h2 : KeepsMutationCounts cs' cs'') :
    KeepsMutationCounts cs cs'' := by
  intro j c hc
  obtain ⟨c', hc', hk, hl⟩ := h1 j c hc
  obtain ⟨c'', hc'', hk', hl'⟩ := h2 j c' hc'
  exact ⟨c'', hc'', by rw [hk', hk], by rw [hl', hl]⟩

theorem keepsMutationCounts_adjN (delta : Int) (cs : List Clone) (i : Nat) :
    KeepsMutationCounts cs (adjN delta cs i) := by
  intro j c hc
  by_cases hji : j = i
  · subst hji
    refine ⟨{ c with n := c.n + delta }, ?_, rfl, rfl⟩
    rw [adjN_getElem?_self, hc]
    rfl
  · exact ⟨c, by rw [adjN_getElem?_ne _ _ _ _ hji, hc], rfl, rfl⟩

theorem keepsMutationCounts_append (cs ds : List Clone) :
    KeepsMutationCounts cs (cs ++ ds) := by
  intro j c hc
  exact ⟨c, by rw [List.getElem?_append_left (lt_length_of_getElem? hc), hc], rfl, rfl⟩

theorem keepsMutationCounts_applyDivisionDeath (cs : List Clone) (dy re : Option Nat) :
    KeepsMutationCounts cs (applyDivisionDeath cs dy re) := by
  cases dy with
  | none => exact KeepsMutationCounts.refl cs
  | some a =>
    cases re with
    | none => exact KeepsMutationCounts.refl cs
    | some b =>
      exact (keepsMutationCounts_adjN (-1) cs a).trans (keepsMutationCounts_adjN 1 _ b)

theorem mutationEvent_cases (P : Params) (st : SimState) (dr : Draws) :
    mutationEvent P st dr = st ∨
    ∃ i c, selectParent st.clones dr.random_cell_pos = some i ∧ st.clones[i]? = some c ∧
      ((dr.u_type < P.p ∧ mutationEvent P st dr =
          { st with
            clones := adjN (-1) st.clones i ++ [{ k := c.k + 1, l := c.l, n := 1 }]
            cumulative_drivers := st.cumulative_drivers + 1 }) ∨
       (P.p ≤ dr.u_type ∧ mutationEvent P st dr =
          { st with
            clones := adjN (-1) st.clones i ++ [{ k := c.k, l := c.l + 1, n := 1 }]
            cumulative_passengers := st.cumulative_passengers + 1 })) := by
  cases h : selectParent st.clones dr.random_cell_pos with
  | none => exact Or.inl (by simp [mutationEvent, h])
  | some i =>
    have hi := selectParent_lt _ _ _ h
    have hc : st.clones[i]? = some st.clones[i] := by simp [hi]
    refine Or.inr ⟨i, st.clones[i], rfl, hc, ?_⟩
    by_cases hu : dr.u_type < P.p
    · exact Or.inl ⟨hu, by simp [mutationEvent, h, applyMutation_eq P.p st i dr.u_type _ hc, hu]⟩
    · exact Or.inr ⟨not_lt.mp hu,
        by simp [mutationEvent, h, applyMutation_eq P.p st i dr.u_type _ hc, hu]⟩

theorem mutationEvent_frame (P : Params) (st : SimState) (dr : Draws) :
    KeepsMutationCounts st.clones (mutationEvent P st dr).clones ∧
    ((mutationEvent P st dr).clones.length = st.clones.length ∨
      ((mutationEvent P st dr).clones.length = st.clones.length + 1 ∧
        ∃ c, (mutationEvent P st dr).clones[st.clones.length]? = some c ∧ c.n = 1)) := by
  rcases mutationEvent_cases P st dr with h | ⟨i, c, _, _, h | h⟩
  · rw [h]
    exact ⟨KeepsMutationCounts.refl _, Or.inl rfl⟩
  · rw [h.2]
    refine ⟨(keepsMutationCounts_adjN (-1) _ i).trans (keepsMutationCounts_append _ _),
      Or.inr ⟨by simp [adjN_length], ⟨{ k := c.k + 1, l := c.l, n := 1 }, ?_, rfl⟩⟩⟩
    show (adjN (-1) st.clones i ++ [_])[st.clones.length]? = _
    rw [List.getElem?_append_right (by rw [adjN_length])]
    simp [adjN_length]
  · rw [h.2]
    refine ⟨(keepsMutationCounts_adjN (-1) _ i).trans (keepsMutationCounts_append _ _),
      Or.inr ⟨by simp [adjN_length], ⟨{ k := c.k, l := c.l + 1, n := 1 }, ?_, rfl⟩⟩⟩
    show (adjN (-1) st.clones i ++ [_])[st.clones.length]? = _
    rw [List.getElem?_append_right (by rw [adjN_length])]
    simp [adjN_length]

/-- Claim C11 (append-only registry, immutable mutation counts): whatever
the regime and the draws, the applied event does not shorten the registry
and leaves every existing clone at its index with the same `k` and `l`; a
Division/Death event leaves the registry length and both cumulative counters
unchanged; a Mutation event either leaves the length unchanged or appends
exactly one clone, whose `n` is 1; and when the applied event changes the
length, it is a Mutation event that appended one clone with `n = 1`. -/
theorem append_only_registry (P : Params) (st : SimState) (dr : Draws) :
    st.clones.length ≤ (applyEvent P st dr).clones.length ∧
    KeepsMutationCounts st.clones (applyEvent P st dr).clones ∧
    (KeepsMutationCounts st.clones (divisionDeathEvent P st dr).clones ∧
      (divisionDeathEvent P st dr).clones.length = st.clones.length ∧
      (divisionDeathEvent P st dr).cumulative_drivers = st.cumulative_drivers ∧
      (divisionDeathEvent P st dr).cumulative_passengers = st.cumulative_passengers) ∧
    (KeepsMutationCounts st.clones (mutationEvent P st dr).clones ∧
      ((mutationEvent P st dr).clones.length = st.clones.length ∨
        ((mutationEvent P st dr).clones.length = st.clones.length + 1 ∧
          ∃ c, (mutationEvent P st dr).clones[st.clones.length]? = some c ∧ c.n = 1))) ∧
    ((applyEvent P st dr).clones.length ≠ st.clones.length →
      isDivisionDeath P st.clones dr = false ∧
      (applyEvent P st dr).clones.length = st.clones.length + 1 ∧
      ∃ c, (applyEvent P st dr).clones[st.clones.length]? = some c ∧ c.n = 1) := by
  have hdd : KeepsMutationCounts st.clones (divisionDeathEvent P st dr).clones ∧
      (divisionDeathEvent P st dr).clones.length = st.clones.length ∧
      (divisionDeathEvent P st dr).cumulative_drivers = st.cumulative_drivers ∧
      (divisionDeathEvent P st dr).cumulative_passengers = st.cumulative_passengers :=
    ⟨keepsMutationCounts_applyDivisionDeath _ _ _, applyDivisionDeath_length _ _ _, rfl, rfl⟩
  have hmu := mutationEvent_frame P st dr
  refine ⟨?_, ?_, hdd, hmu, ?_⟩
  · unfold applyEvent
    split
    · exact le_of_eq hdd.2.1.symm
    · rcases hmu.2 with h | h <;> omega
  · unfold applyEvent
    split
    · exact hdd.1
    · exact hmu.1
  · unfold applyEvent
    split
    · intro hne
      exact absurd hdd.2.1 hne
    · rename_i hcls
      intro hne
      rcases hmu.2 with h | h
      · exact absurd h hne
      · exact ⟨by simpa using hcls, h⟩

/-- Claim C11 at a concrete input: the event applied first from three cells
with the mutation draws changes the registry length, and is a Mutation. -/
theorem append_only_registry_witness :
    (applyEvent exampleParams (initState exampleParams) exampleDrawsMutation).clones.length
        ≠ (initState exampleParams).clones.length ∧
    isDivisionDeath exampleParams (initState exampleParams).clones exampleDrawsMutation
        = false := by
  have hne : (applyEvent exampleParams (initState exampleParams)
      exampleDrawsMutation).clones.length ≠ (initState exampleParams).clones.length := by
    norm_num [applyEvent, isDivisionDeath, totalDivisionPropensity, computePropensities,
      propLoop, propensity, fitness, mutationEvent, selectParent, parentWalk, applyMutation,
      adjN, initState, exampleParams, exampleDrawsMutation]
  exact ⟨hne,
    ((append_only_registry exampleParams (initState exampleParams)
      exampleDrawsMutation).2.2.2.2 hne).1⟩

theorem adjN_cancel (cs : List Clone) (i : Nat) : adjN 1 (adjN (-1) cs i) i = cs := by
  induction cs generalizing i with
  | nil => simp [adjN]
  | cons c cs ih =>
    cases i with
    | zero => simp [adjN]
    | succ i => simp [adjN, ih]

/-- Claim C14 (failed selection is a no-op): when the reproduction or the
death selection of a Division/Death event returns no clone, and when the
parent selection of a Mutation event returns no clone, the event leaves the
whole state (registry and both counters) unchanged; when both Division/Death
selections succeed, the registry length, the counters and the time are
unchanged, the registry is unchanged if the two clones coincide, and
otherwise the dying clone's `n` is decremented by 1, the reproducing clone's
`n` is incremented by 1, and every other entry is unchanged. -/
theorem failed_selection_noop (P : Params) (st : SimState) (dr : Draws) :
    ((reproducingIdx P st.clones dr = none ∨ dyingIdx P st.clones dr = none) →
      divisionDeathEvent P st dr = st) ∧
    (selectParent st.clones dr.random_cell_pos = none → mutationEvent P st dr = st) ∧
    (∀ a b : Nat, dyingIdx P st.clones dr = some a → reproducingIdx P st.clones dr = some b →
      (divisionDeathEvent P st dr).clones.length = st.clones.length ∧
      (divisionDeathEvent P st dr).cumulative_drivers = st.cumulative_drivers ∧
      (divisionDeathEvent P st dr).cumulative_passengers = st.cumulative_passengers ∧
      (divisionDeathEvent P st dr).t = st.t ∧
      (a = b → (divisionDeathEvent P st dr).clones = st.clones) ∧
      (a ≠ b → ∃ ca cb, st.clones[a]? = some ca ∧ st.clones[b]? = some cb ∧
        (divisionDeathEvent P st dr).clones[a]?
          = some { k := ca.k, l := ca.l, n := ca.n - 1 } ∧
        (divisionDeathEvent P st dr).clones[b]?
          = some { k := cb.k, l := cb.l, n := cb.n + 1 }) ∧
      (∀ j : Nat, j ≠ a → j ≠ b →
        (divisionDeathEvent P st dr).clones[j]? = st.clones[j]?)) := by
  refine ⟨?_, ?_, ?_⟩
  · intro h
    simp only [divisionDeathEvent]
    rcases h with h | h
    · rw [h]
      cases dyingIdx P st.clones dr <;> rfl
    · rw [h]
      rfl
  · intro h
    simp only [mutationEvent, h]
  · intro a b ha hb
    obtain ⟨ca, hca, _⟩ := dyingIdx_active P st.clones dr a ha
    obtain ⟨cb, hcb, _⟩ := reproducingIdx_active P st.clones dr b hb
    simp only [divisionDeathEvent, ha, hb, applyDivisionDeath]
    refine ⟨by simp [adjN_length], trivial, trivial, trivial, ?_, ?_, ?_⟩
    · intro hab
      subst hab
      exact adjN_cancel st.clones a
    · intro hab
      refine ⟨ca, cb, hca, hcb, ?_, ?_⟩
      · rw [adjN_getElem?_ne _ _ _ _ hab, adjN_getElem?_self, hca]
        rfl
      · rw [adjN_getElem?_self, adjN_getElem?_ne _ _ _ _ (Ne.symm hab), hcb]
        rfl
    · intro j hja hjb
      rw [adjN_getElem?_ne _ _ _ _ hjb, adjN_getElem?_ne _ _ _ _ hja]

/-- Claim C14 at a concrete input: with no cell (`Ntot = 0`) the parent
selection finds no clone and the Mutation event changes nothing. -/
theorem failed_selection_noop_witness :
    selectParent (initState exampleParamsEmpty).clones exampleDrawsMutation.random_cell_pos
        = none ∧
    mutationEvent exampleParamsEmpty (initState exampleParamsEmpty) exampleDrawsMutation
        = initState exampleParamsEmpty :=
  ⟨by decide,
    (failed_selection_noop exampleParamsEmpty (initState exampleParamsEmpty)
      exampleDrawsMutation).2.1 (by decide)⟩

/-! ## Neutral fitness -/

theorem fitness_zero_zero (c : Clone) : fitness 0 0 c = 1 := by
  simp [fitness]

theorem propensity_zero_zero (c : Clone) : propensity 0 0 c = (c.n : ℚ) := by
  simp [propensity, fitness_zero_zero]

theorem propensityBefore_zero_zero (cs : List Clone) (hnn : ∀ c ∈ cs, 0 ≤ c.n) (j : Nat) :
    propensityBefore 0 0 cs j = (populationBefore cs j : ℚ) := by
  induction cs generalizing j with
  | nil => simp [propensityBefore, populationBefore, totalPopulation]
  | cons c cs ih =>
    cases j with
    | zero => simp [propensityBefore_zero, populationBefore_zero]
    | succ j =>
      rw [propensityBefore_cons_succ, populationBefore_cons_succ,
        ih (fun c' hc' => hnn c' (List.mem_cons_of_mem _ hc')) j, propensity_zero_zero]
      have h0 := hnn c (List.mem_cons_self _ _)
      by_cases hc : 0 < c.n
      · simp [hc]
      · have e : c.n = 0 := by omega
        simp [e]

theorem proportionalSelect_neutral (cs : List Clone) (hnn : ∀ c ∈ cs, 0 ≤ c.n) (r : ℚ)
    (h0 : 0 ≤ r) : proportionalSelect 0 0 cs r = selectParent cs (⌊r⌋ + 1) := by
  have hpos : ∀ c ∈ cs, 0 < c.n → 0 < propensity 0 0 c := by
    intro c _ hc
    rw [propensity_zero_zero]
    exact_mod_cast hc
  have hfl : (0 : Int) ≤ ⌊r⌋ := Int.floor_nonneg.mpr h0
  apply Option.ext
  intro i
  simp only [Option.mem_def]
  rw [proportionalSelect_iff 0 0 cs hpos r h0 i, selectParent_iff cs hnn _ (by omega) i,
    propensityBefore_zero_zero cs hnn, propensityBefore_zero_zero cs hnn]
  constructor
  · rintro ⟨c, hc, _, hlo, hhi⟩
    refine ⟨lt_length_of_getElem? hc, ?_, ?_⟩
    · have : populationBefore cs i ≤ ⌊r⌋ := Int.le_floor.mpr hlo
      omega
    · have : ⌊r⌋ < populationBefore cs (i + 1) := Int.floor_lt.mpr hhi
      omega
  · rintro ⟨hi, hlo, hhi⟩
    have hc : cs[i]? = some cs[i] := by simp [hi]
    have hlo' : populationBefore cs i ≤ ⌊r⌋ := by omega
    have hhi' : ⌊r⌋ < populationBefore cs (i + 1) := by omega
    have hsucc := populationBefore_succ cs i cs[i] hc
    exact ⟨cs[i], hc, by omega, Int.le_floor.mp hlo', Int.floor_lt.mp hhi'⟩

/-- Claim C12 (fitness neutrality): with `s = 0` and `d = 0` every clone,
whatever its `k` and `l`, has fitness 1 and division propensity `n`, and the
vector `propensities` lists the populations of the active clones; in a
registry with non-negative populations `total_division_propensity` is the
sum of the populations, and for every `r` with
`0 ≤ r < total_division_propensity` proportional selection with `r` returns
a clone, the same index as the mutation-parent walk and as the regime-B
death walk with cell index `floor(r) + 1`. -/
theorem fitness_neutrality (clones : List Clone) :
    (∀ c : Clone, fitness 0 0 c = 1 ∧ propensity 0 0 c = (c.n : ℚ)) ∧
    (computePropensities 0 0 clones).propensities
      = (clones.filter (fun c => decide (c.n > 0))).map (fun c => (c.n : ℚ)) ∧
    ((∀ c ∈ clones, 0 ≤ c.n) →
      totalDivisionPropensity 0 0 clones = (totalPopulation clones : ℚ) ∧
      ∀ r : ℚ, 0 ≤ r → r < totalDivisionPropensity 0 0 clones →
        (∃ i, proportionalSelect 0 0 clones r = some i) ∧
        proportionalSelect 0 0 clones r = selectParent clones (⌊r⌋ + 1) ∧
        proportionalSelect 0 0 clones r = selectDeathB clones (⌊r⌋ + 1)) := by
  refine ⟨fun c => ⟨fitness_zero_zero c, propensity_zero_zero c⟩, ?_, ?_⟩
  · rw [computePropensities_eq]
    simp only [activePropensities]
    apply List.map_congr_left
    intro c _
    exact propensity_zero_zero c
  · intro hnn
    refine ⟨?_, ?_⟩
    · rw [totalDivisionPropensity_eq, ← propensityBefore_length,
        propensityBefore_zero_zero clones hnn, populationBefore_length]
    · intro r h0 h1
      have hfl : (0 : Int) ≤ ⌊r⌋ := Int.floor_nonneg.mpr h0
      refine ⟨proportionalSelect_exists 0 0 clones r h0 h1,
        proportionalSelect_neutral clones hnn r h0, ?_⟩
      rw [selectDeathB_eq_selectParent clones hnn _ (by omega)]
      exact proportionalSelect_neutral clones hnn r h0

/-- Claim C12 at a concrete input: in the registry with populations 2, 0, 1
the neutral propensity total is the population sum 3. -/
theorem fitness_neutrality_witness :
    (∀ c ∈ exampleRegistry, 0 ≤ c.n) ∧
    totalDivisionPropensity 0 0 exampleRegistry = (totalPopulation exampleRegistry : ℚ) :=
  ⟨by decide, ((fitness_neutrality exampleRegistry).2.2 (by decide)).1⟩

/-! ## The recorded rows -/

theorem runLoopStates_cons (P : Params) (st : SimState) (dr : Draws) (rest : List Draws) :
    runLoopStates P st (dr :: rest) =
      if st.t < P.tmax ∧ st.t + dr.dt < P.tmax then
        applyEvent P { st with t := st.t + dr.dt } dr ::
          runLoopStates P (applyEvent P { st with t := st.t + dr.dt } dr) rest
      else [] := by
  by_cases h1 : st.t < P.tmax
  · by_cases h2 : st.t + dr.dt < P.tmax
    · have h3 : ¬ st.t + dr.dt ≥ P.tmax := not_le.mpr h2
      simp [runLoopStates, iteration, h1, h2, h3]
    · have h3 : st.t + dr.dt ≥ P.tmax := not_lt.mp h2
      simp [runLoopStates, iteration, h1, h2, h3]
  · simp [runLoopStates, h1]

theorem runLoop_eq_map (P : Params) (draws : List Draws) (st : SimState) :
    runLoop P st draws = (runLoopStates P st draws).map recordRow := by
  induction draws generalizing st with
  | nil => simp [runLoop, runLoopStates]
  | cons dr rest ih =>
    rw [runLoop_cons, runLoopStates_cons]
    by_cases hcond : st.t < P.tmax ∧ st.t + dr.dt < P.tmax
    · simp only [hcond, and_self, if_true, List.map_cons]
      rw [ih]
    · simp [hcond]

theorem runLoopStates_reachable (ok : Draws → Prop) (P : Params) (draws : List Draws)
    (hok : ∀ dr ∈ draws, ok dr) (st : SimState) (hst : ReachableBy ok P st) :
    ∀ st' ∈ runLoopStates P st draws, ReachableBy ok P st' := by
  induction draws generalizing st with
  | nil => simp [runLoopStates]
  | cons dr rest ih =>
    have hdr : ok dr := hok dr (List.mem_cons_self _ _)
    have hrest : ∀ dr' ∈ rest, ok dr' := fun dr' h => hok dr' (List.mem_cons_of_mem _ h)
    rw [runLoopStates_cons]
    by_cases hcond : st.t < P.tmax ∧ st.t + dr.dt < P.tmax
    · simp only [hcond, and_self, if_true]
      have hnext : ReachableBy ok P (applyEvent P { st with t := st.t + dr.dt } dr) := by
        have h := ReachableBy.step st dr hst hcond.1 hdr
        have e : (iteration P st dr).state = applyEvent P { st with t := st.t + dr.dt } dr := by
          have h3 : ¬ st.t + dr.dt ≥ P.tmax := not_le.mpr hcond.2
          simp [iteration, h3, Outcome.state]
        rw [e] at h
        exact h
      intro st' hst'
      rcases List.mem_cons.mp hst' with h | h
      · rw [h]; exact hnext
      · exact ih hrest _ hnext st' h
    · simp [hcond]

/-- Claim C13, as amended (ActiveClones column): Row 0 is always
`0,1,0,0`; for `Ntot ≥ 1` it is the row of the initial state, that is, its
second field is the number of registry entries with `n > 0` and its last two
fields are the two counters; and for every `Ntot` each row written by the
loop is the row of the state at the end of its iteration: the number of
entries with `n > 0` of that state, with its two cumulative counters. -/
theorem active_clones_column (P : Params) (draws : List Draws) :
    initialRow P = { time := 0, active_clones_count := 1, cumulative_drivers := 0,
                     cumulative_passengers := 0 } ∧
    (run P draws).head? = some (initialRow P) ∧
    (1 ≤ P.Ntot → initialRow P = recordRow (initState P)) ∧
    (run P draws).tail = (runLoopStates P (initState P) draws).map recordRow ∧
    (∀ st : SimState,
      (recordRow st).active_clones_count
        = (st.clones.filter (fun c => decide (c.n > 0))).length ∧
      (recordRow st).cumulative_drivers = st.cumulative_drivers ∧
      (recordRow st).cumulative_passengers = st.cumulative_passengers ∧
      (recordRow st).time = st.t) := by
  refine ⟨rfl, rfl, ?_, ?_, ?_⟩
  · intro hN
    have hpos : 0 < P.Ntot := by omega
    simp [initialRow, recordRow, initState, activeClonesCount, hpos]
  · simp [run, runLoop_eq_map]
  · intro st
    exact ⟨by simp [recordRow, activeClonesCount, List.countP_eq_length_filter], rfl, rfl, rfl⟩

/-- Claim C13 as stated fails at `Ntot = 0`: Row 0 reports 1 active clone
while the initial registry `[{0, 0, 0}]` has no entry with `n > 0`. -/
theorem active_clones_column_counterexample :
    0 ≤ exampleParamsEmpty.Ntot ∧
    (run exampleParamsEmpty []).head? = some (initialRow exampleParamsEmpty) ∧
    (initialRow exampleParamsEmpty).active_clones_count = 1 ∧
    activeClonesCount (initState exampleParamsEmpty).clones = 0 := by
  refine ⟨by decide, rfl, rfl, by decide⟩

/-- Claim C13, as amended, at a concrete input: with three cells Row 0 is
the row of the initial state. -/
theorem active_clones_column_witness :
    1 ≤ exampleParams.Ntot ∧ initialRow exampleParams = recordRow (initState exampleParams) :=
  ⟨by decide, (active_clones_column exampleParams []).2.2.1 (by decide)⟩

/-! ## The two regimes -/

theorem fitness_pos (s d : ℚ) (hs : -1 < s) (hd : d < 1) (c : Clone) : 0 < fitness s d c := by
  have h1 : (0 : ℚ) < 1 + s := by linarith
  have h2 : (0 : ℚ) < 1 - d := by linarith
  unfold fitness
  positivity

theorem propensity_pos (s d : ℚ) (hs : -1 < s) (hd : d < 1) (c : Clone) (hc : 0 < c.n) :
    0 < propensity s d c := by
  unfold propensity
  have h1 : (0 : ℚ) < (c.n : ℚ) := by exact_mod_cast hc
  exact mul_pos h1 (fitness_pos s d hs hd c)

theorem totalDivisionPropensity_pos (s d : ℚ) (cs : List Clone)
    (hpos : ∀ c ∈ cs, 0 < c.n → 0 < propensity s d c) (i : Nat) (c : Clone)
    (hi : cs[i]? = some c) (hc : 0 < c.n) : 0 < totalDivisionPropensity s d cs := by
  have h1 := propensityBefore_le_total s d cs hpos (i + 1)
  have h2 := propensityBefore_succ s d cs i c hi
  have h3 := propensityBefore_nonneg s d cs hpos i
  have h4 := hpos c (List.getElem?_mem hi) hc
  simp only [hc, if_true] at h2
  linarith

theorem totalDivisionPropensity_equal_fitness (s d : ℚ) (cs : List Clone) (f : ℚ)
    (hnn : ∀ c ∈ cs, 0 ≤ c.n) (hf : ∀ c ∈ cs, 0 < c.n → fitness s d c = f) :
    totalDivisionPropensity s d cs = f * (totalPopulation cs : ℚ) := by
  rw [totalDivisionPropensity_eq]
  induction cs with
  | nil => simp [activePropensities, totalPopulation]
  | cons c cs ih =>
    have ih' := ih (fun c' hc' => hnn c' (List.mem_cons_of_mem _ hc'))
      (fun c' hc' => hf c' (List.mem_cons_of_mem _ hc'))
    have h0 := hnn c (List.mem_cons_self _ _)
    have hsum : totalPopulation (c :: cs) = c.n + totalPopulation cs := by
      simp [totalPopulation]
    rw [hsum]
    by_cases hc : 0 < c.n
    · have hfc := hf c (List.mem_cons_self _ _) hc
      have e1 : activePropensities s d (c :: cs)
          = propensity s d c :: activePropensities s d cs := by
        simp [activePropensities, hc]
      rw [e1, List.sum_cons, ih', propensity, hfc]
      push_cast
      ring
    · have e : c.n = 0 := by omega
      have e1 : activePropensities s d (c :: cs) = activePropensities s d cs := by
        simp [activePropensities, hc]
      rw [e1, ih', e]
      push_cast
      ring

theorem fitness_of_equal_share (s d : ℚ) (cs : List Clone) (Ntot : Int) (hN : 1 ≤ Ntot)
    (hT : 0 < totalDivisionPropensity s d cs) (c : Clone) (hc : 0 < c.n)
    (h : propensity s d c / totalDivisionPropensity s d cs = (c.n : ℚ) / (Ntot : ℚ)) :
    fitness s d c = totalDivisionPropensity s d cs / (Ntot : ℚ) := by
  have hN' : (0 : ℚ) < (Ntot : ℚ) := by exact_mod_cast (by omega : 0 < Ntot)
  have hn : (0 : ℚ) < (c.n : ℚ) := by exact_mod_cast hc
  unfold propensity at h
  rw [div_eq_div_iff (ne_of_gt hT) (ne_of_gt hN')] at h
  rw [eq_div_iff (ne_of_gt hN')]
  have h' : (c.n : ℚ) * (fitness s d c * (Ntot : ℚ))
      = (c.n : ℚ) * totalDivisionPropensity s d cs := by linarith
  exact mul_left_cancel₀ (ne_of_gt hn) h'

/-! ## Mutation counts of the clones -/

theorem zpow_succ_of_nonneg (a : ℚ) (k : Int) (hk : 0 ≤ k) : a ^ (k + 1) = a ^ k * a := by
  obtain ⟨n, rfl⟩ := Int.eq_ofNat_of_zero_le hk
  have e : ((n : Int) + 1) = ((n + 1 : Nat) : Int) := by push_cast; rfl
  rw [e, zpow_natCast, zpow_natCast, pow_succ]

theorem counts_nonneg_adjN (delta : Int) (cs : List Clone) (i : Nat)
    (h : ∀ c ∈ cs, 0 ≤ c.k ∧ 0 ≤ c.l) : ∀ c ∈ adjN delta cs i, 0 ≤ c.k ∧ 0 ≤ c.l := by
  induction cs generalizing i with
  | nil => simp [adjN]
  | cons a cs ih =>
    have h' : ∀ c ∈ cs, 0 ≤ c.k ∧ 0 ≤ c.l := fun c hc => h c (List.mem_cons_of_mem _ hc)
    have ha := h a (List.mem_cons_self _ _)
    cases i with
    | zero =>
      intro c hc
      simp only [adjN, List.mem_cons] at hc
      rcases hc with hc | hc
      · subst hc; exact ha
      · exact h' c hc
    | succ i =>
      intro c hc
      simp only [adjN, List.mem_cons] at hc
      rcases hc with hc | hc
      · subst hc; exact ha
      · exact ih i h' c hc

theorem counts_nonneg_applyEvent (P : Params) (st : SimState) (dr : Draws)
    (h : ∀ c ∈ st.clones, 0 ≤ c.k ∧ 0 ≤ c.l) :
    ∀ c ∈ (applyEvent P st dr).clones, 0 ≤ c.k ∧ 0 ≤ c.l := by
  unfold applyEvent
  split
  · simp only [divisionDeathEvent]
    cases dyingIdx P st.clones dr with
    | none => exact h
    | some a =>
      cases reproducingIdx P st.clones dr with
      | none => exact h
      | some b =>
        exact counts_nonneg_adjN 1 _ b (counts_nonneg_adjN (-1) _ a h)
  · rcases mutationEvent_cases P st dr with he | ⟨i, c, _, hc, he | he⟩
    · rw [he]; exact h
    · rw [he.2]
      have hkl := h c (List.getElem?_mem hc)
      intro c' hc'
      simp only [List.mem_append, List.mem_singleton] at hc'
      rcases hc' with hc' | hc'
      · exact counts_nonneg_adjN (-1) _ i h c' hc'
      · subst hc'
        exact ⟨by show 0 ≤ c.k + 1; omega, hkl.2⟩
    · rw [he.2]
      have hkl := h c (List.getElem?_mem hc)
      intro c' hc'
      simp only [List.mem_append, List.mem_singleton] at hc'
      rcases hc' with hc' | hc'
      · exact counts_nonneg_adjN (-1) _ i h c' hc'
      · subst hc'
        exact ⟨hkl.1, by show 0 ≤ c.l + 1; omega⟩

theorem counts_nonneg_of_reachableBy (ok : Draws → Prop) (P : Params) (st : SimState)
    (h : ReachableBy ok P st) : ∀ c ∈ st.clones, 0 ≤ c.k ∧ 0 ≤ c.l := by
  induction h with
  | init => simp [initState]
  | step st dr _ _ _ ih =>
    rcases iteration_state_cases P st dr with he | he <;> rw [he]
    · exact ih
    · exact counts_nonneg_applyEvent P { st with t := st.t + dr.dt } dr ih

/-- Claim C16 (multiplicative fitness of a mutant): in a Mutation event whose
parent selection returns clone `(k, l)`, in a reachable state or in any
state where the parent has `k ≥ 0` and `l ≥ 0`, the appended clone has
fitness `(1+s)^k' * (1-d)^l'` equal to the parent's fitness times `1 + s`
when `u < p` and times `1 - d` when `u ≥ p`; as its `n` is 1, that fitness is
also its division propensity in the next iteration. -/
theorem mutant_fitness (P : Params) (st : SimState) (dr : Draws) (i : Nat) (c : Clone)
    (hsel : selectParent st.clones dr.random_cell_pos = some i)
    (hc : st.clones[i]? = some c) (hst : Reachable P st ∨ (0 ≤ c.k ∧ 0 ≤ c.l)) :
    ∃ new_clone : Clone,
      (mutationEvent P st dr).clones[st.clones.length]? = some new_clone ∧
      (dr.u_type < P.p → fitness P.s P.d new_clone = fitness P.s P.d c * (1 + P.s)) ∧
      (P.p ≤ dr.u_type → fitness P.s P.d new_clone = fitness P.s P.d c * (1 - P.d)) ∧
      propensity P.s P.d new_clone = fitness P.s P.d new_clone := by
  have hkl : 0 ≤ c.k ∧ 0 ≤ c.l := by
    rcases hst with h | h
    · exact counts_nonneg_of_reachableBy _ P st h c (List.getElem?_mem hc)
    · exact h
  have hlast : ∀ x : Clone, (adjN (-1) st.clones i ++ [x])[st.clones.length]? = some x := by
    intro x
    rw [List.getElem?_append_right (by rw [adjN_length])]
    simp [adjN_length]
  simp only [mutationEvent, hsel, applyMutation_eq P.p st i dr.u_type c hc]
  by_cases hu : dr.u_type < P.p
  · simp only [hu, if_true]
    refine ⟨{ k := c.k + 1, l := c.l, n := 1 }, hlast _, ?_, ?_, ?_⟩
    · intro _
      simp only [fitness]
      rw [zpow_succ_of_nonneg _ _ hkl.1]
      ring
    · intro hp
      exact absurd hu (not_lt.mpr hp)
    · simp [propensity]
  · simp only [hu, if_false]
    refine ⟨{ k := c.k, l := c.l + 1, n := 1 }, hlast _, ?_, ?_, ?_⟩
    · intro hp
      exact False.elim hp
    · intro _
      simp only [fitness]
      rw [zpow_succ_of_nonneg _ _ hkl.2]
      ring
    · simp [propensity]

/-- Claim C16 at a concrete input: the driver mutant of the wild-type clone
has fitness `1 + s` times the wild-type fitness. -/
theorem mutant_fitness_witness :
    ∃ new_clone : Clone,
      (mutationEvent exampleParams (initState exampleParams)
        exampleDrawsMutation).clones[(initState exampleParams).clones.length]?
          = some new_clone ∧
      (exampleDrawsMutation.u_type < exampleParams.p →
        fitness exampleParams.s exampleParams.d new_clone
          = fitness exampleParams.s exampleParams.d { k := 0, l := 0, n := 3 }
              * (1 + exampleParams.s)) := by
  obtain ⟨new_clone, h1, h2, _⟩ :=
    mutant_fitness exampleParams (initState exampleParams) exampleDrawsMutation 0
      { k := 0, l := 0, n := 3 } (by decide) (by decide) (Or.inl ReachableBy.init)
  exact ⟨new_clone, h1, h2⟩

/-! ## Invariants along a run -/

/-- Claim C17 (the two uniform-cell walks agree): in a registry with
non-negative populations, for every cell index `c ≥ 1` the regime-B death
walk, which skips the clones with `n = 0`, and the mutation-parent walk,
which adds the `n` of every clone, return the same result: the same registry
index, or both no clone. -/
theorem uniform_walks_agree (clones : List Clone) (hnn : ∀ cl ∈ clones, 0 ≤ cl.n) (c : Int)
    (hc : 1 ≤ c) :
    selectDeathB clones c = selectParent clones c ∧
    (selectDeathB clones c = none ↔ selectParent clones c = none) ∧
    (∀ i : Nat, selectDeathB clones c = some i ↔ selectParent clones c = some i) := by
  have h := selectDeathB_eq_selectParent clones hnn c hc
  exact ⟨h, by rw [h], fun i => by rw [h]⟩

/-- Claim C17 at concrete inputs: on the registry with populations 2, 0, 1
the two walks agree for cell 3 (both return clone 2) and for cell 4 (both
return no clone). -/
theorem uniform_walks_agree_witness :
    (selectDeathB exampleRegistry 3 = selectParent exampleRegistry 3 ∧
      selectParent exampleRegistry 3 = some 2) ∧
    (selectDeathB exampleRegistry 4 = selectParent exampleRegistry 4 ∧
      selectParent exampleRegistry 4 = none) :=
  ⟨⟨(uniform_walks_agree exampleRegistry (by decide) 3 (by decide)).1, by decide⟩,
    ⟨(uniform_walks_agree exampleRegistry (by decide) 4 (by decide)).1, by decide⟩⟩

theorem totalPopulation_of_reachableBy (ok : Draws → Prop) (P : Params) (st : SimState)
    (h : ReachableBy ok P st) : totalPopulation st.clones = P.Ntot := by
  induction h with
  | init => simp [initState, totalPopulation]
  | step st dr _ _ _ ih => rw [totalPopulation_iteration]; exact ih

theorem counters_of_reachableBy (ok : Draws → Prop) (P : Params) (st : SimState)
    (h : ReachableBy ok P st) :
    st.cumulative_drivers + st.cumulative_passengers = (st.clones.length : Int) - 1 ∧
    0 ≤ st.cumulative_drivers ∧ 0 ≤ st.cumulative_passengers := by
  induction h with
  | init => simp [initState]
  | step st dr _ _ _ ih =>
    have := counters_iteration P st dr
    omega

theorem exists_active_of_total_pos (cs : List Clone) (h : 0 < totalPopulation cs) :
    ∃ c ∈ cs, 0 < c.n := by
  induction cs with
  | nil => simp [totalPopulation] at h
  | cons a cs ih =>
    by_cases ha : 0 < a.n
    · exact ⟨a, List.mem_cons_self _ _, ha⟩
    · have h' : 0 < totalPopulation cs := by
        simp only [totalPopulation, List.map_cons, List.sum_cons] at h ⊢
        omega
      obtain ⟨c, hc, hpos⟩ := ih h'
      exact ⟨c, List.mem_cons_of_mem _ hc, hpos⟩

theorem activeClonesCount_le_total (cs : List Clone) (hnn : ∀ c ∈ cs, 0 ≤ c.n) :
    (activeClonesCount cs : Int) ≤ totalPopulation cs := by
  induction cs with
  | nil => simp [activeClonesCount, totalPopulation]
  | cons a cs ih =>
    have ih' := ih (fun c hc => hnn c (List.mem_cons_of_mem _ hc))
    have h0 := hnn a (List.mem_cons_self _ _)
    simp only [activeClonesCount, totalPopulation, List.map_cons, List.sum_cons] at ih' ⊢
    by_cases ha : 0 < a.n
    · rw [List.countP_cons_of_pos _ _ (by simpa using ha)]
      push_cast
      omega
    · rw [List.countP_cons_of_neg _ _ (by simpa using ha)]
      omega

theorem activeClonesCount_pos (cs : List Clone) (c : Clone) (hc : c ∈ cs) (hpos : 0 < c.n) :
    1 ≤ activeClonesCount cs := by
  unfold activeClonesCount
  exact List.countP_pos_iff.mpr ⟨c, hc, by simpa using hpos⟩

/-- Claim C18, as amended (the waiting-time rate is never degenerate, in
exact arithmetic): with powers and products computed exactly, for `Ntot ≥ 1`,
`s > -1`, `d < 1`, `L ≥ 0`, in every state reachable from `[{0, 0, Ntot}]`
(either regime, cell indices `≥ 1` as `cell_dist(1, Ntot)` returns them, all
other draws arbitrary) there is an active clone, every active clone has a
strictly positive division propensity, and so `total_division_propensity > 0`
and `total_propensity = total_division_propensity + L > 0`. -/
theorem rate_never_degenerate (P : Params) (hN : 1 ≤ P.Ntot) (hs : -1 < P.s) (hd : P.d < 1)
    (hL : 0 ≤ P.L) (st : SimState)
    (h : ReachableBy (fun dr => 1 ≤ dr.random_cell_pos) P st) :
    (∃ (i : Nat) (c : Clone), st.clones[i]? = some c ∧ 0 < c.n) ∧
    (∀ c ∈ st.clones, 0 < c.n → 0 < propensity P.s P.d c) ∧
    0 < totalDivisionPropensity P.s P.d st.clones ∧
    0 < totalDivisionPropensity P.s P.d st.clones + P.L := by
  have hsum := totalPopulation_of_reachableBy _ P st h
  have hpos : ∀ c ∈ st.clones, 0 < c.n → 0 < propensity P.s P.d c :=
    fun c _ hc => propensity_pos P.s P.d hs hd c hc
  obtain ⟨c, hc, hcn⟩ := exists_active_of_total_pos st.clones (by omega)
  obtain ⟨i, hi⟩ := List.mem_iff_getElem?.mp hc
  have hT := totalDivisionPropensity_pos P.s P.d st.clones hpos i c hi hcn
  exact ⟨⟨i, c, hi, hcn⟩, hpos, hT, by linarith⟩

/-- Claim C18, as amended, at a concrete input: after a first Mutation iteration from
three cells the total division propensity is positive. -/
theorem rate_never_degenerate_witness :
    0 < totalDivisionPropensity exampleParams.s exampleParams.d
      (iteration exampleParams (initState exampleParams) exampleDrawsMutation).state.clones :=
  (rate_never_degenerate exampleParams (by decide) (by norm_num [exampleParams])
    (by norm_num [exampleParams]) (by norm_num [exampleParams]) _
    (ReachableBy.step (initState exampleParams) exampleDrawsMutation ReachableBy.init
      (by norm_num [initState, exampleParams]) (by decide))).2.2.1

theorem divisionDeathEvent_single (P : Params) (st : SimState) (dr : Draws)
    (hlen : st.clones.length = 1) : (divisionDeathEvent P st dr).clones = st.clones := by
  simp only [divisionDeathEvent]
  cases ha : dyingIdx P st.clones dr with
  | none => rfl
  | some a =>
    cases hb : reproducingIdx P st.clones dr with
    | none => rfl
    | some b =>
      obtain ⟨ca, hca, _⟩ := dyingIdx_active P st.clones dr a ha
      obtain ⟨cb, hcb, _⟩ := reproducingIdx_active P st.clones dr b hb
      have h1 := lt_length_of_getElem? hca
      have h2 := lt_length_of_getElem? hcb
      have e : b = a := by omega
      subst e
      exact adjN_cancel st.clones b

theorem isDivisionDeath_single (P : Params) (hN : 1 ≤ P.Ntot) (hL : P.L = 0) (dr : Draws)
    (hu : dr.u_class < 1) :
    isDivisionDeath P [{ k := 0, l := 0, n := P.Ntot }] dr = true := by
  have hpos : 0 < P.Ntot := by omega
  have hq : (0 : ℚ) < (P.Ntot : ℚ) := by exact_mod_cast hpos
  have hT : totalDivisionPropensity P.s P.d [{ k := 0, l := 0, n := P.Ntot }]
      = (P.Ntot : ℚ) := by
    simp [totalDivisionPropensity, computePropensities, propLoop, propensity, fitness, hpos]
  simp only [isDivisionDeath, hT, hL, add_zero, decide_eq_true_eq]
  nlinarith

theorem single_clone_applyEvent (P : Params) (hN : 1 ≤ P.Ntot) (hL : P.L = 0)
    (st : SimState) (hst : st.clones = [{ k := 0, l := 0, n := P.Ntot }]) (dr : Draws)
    (hu : dr.u_class < 1) :
    (applyEvent P st dr).clones = [{ k := 0, l := 0, n := P.Ntot }] ∧
    (applyEvent P st dr).cumulative_drivers = st.cumulative_drivers ∧
    (applyEvent P st dr).cumulative_passengers = st.cumulative_passengers := by
  have hcls : isDivisionDeath P st.clones dr = true := by
    rw [hst]; exact isDivisionDeath_single P hN hL dr hu
  simp only [applyEvent, hcls, if_true]
  refine ⟨?_, rfl, rfl⟩
  rw [divisionDeathEvent_single P st dr (by rw [hst]; rfl), hst]

theorem single_clone_of_reachableBy (P : Params) (hN : 1 ≤ P.Ntot) (hL : P.L = 0)
    (ok : Draws → Prop) (hok : ∀ dr, ok dr → dr.u_class < 1) (st : SimState)
    (h : ReachableBy ok P st) :
    st.clones = [{ k := 0, l := 0, n := P.Ntot }] ∧
    st.cumulative_drivers = 0 ∧ st.cumulative_passengers = 0 := by
  induction h with
  | init => exact ⟨rfl, rfl, rfl⟩
  | step st dr _ _ hdr ih =>
    rcases iteration_state_cases P st dr with he | he <;> rw [he]
    · exact ih
    · have := single_clone_applyEvent P hN hL { st with t := st.t + dr.dt } ih.1 dr
        (hok dr hdr)
      exact ⟨this.1, by rw [this.2.1]; exact ih.2.1, by rw [this.2.2]; exact ih.2.2⟩

/-- Claim C19 (no mutation channel when `L = 0`): for `Ntot ≥ 1`, `L = 0`,
either regime, and draws in the ranges of their distributions (uniform draws
in `[0, 1)`), every reachable state has the registry `[{0, 0, Ntot}]` and
both cumulative counters 0, every event applied from it is classified
Division/Death and leaves the registry and the counters so, and every row of
the run has `ActiveClones = 1`, `CumulativeDrivers = 0`,
`CumulativePassengers = 0`. -/
theorem no_mutation_channel (P : Params) (hN : 1 ≤ P.Ntot) (hL : P.L = 0) :
    (∀ st : SimState, ReachableBy (ValidDraws P) P st →
      st.clones = [{ k := 0, l := 0, n := P.Ntot }] ∧
      st.cumulative_drivers = 0 ∧ st.cumulative_passengers = 0 ∧
      ∀ dr : Draws, ValidDraws P dr →
        isDivisionDeath P st.clones dr = true ∧
        (applyEvent P st dr).clones = [{ k := 0, l := 0, n := P.Ntot }] ∧
        (applyEvent P st dr).cumulative_drivers = 0 ∧
        (applyEvent P st dr).cumulative_passengers = 0) ∧
    (∀ draws : List Draws, (∀ dr ∈ draws, ValidDraws P dr) →
      ∀ row ∈ run P draws,
        row.active_clones_count = 1 ∧ row.cumulative_drivers = 0 ∧
        row.cumulative_passengers = 0) := by
  have hok : ∀ dr, ValidDraws P dr → dr.u_class < 1 := fun dr h => h.2.1.2
  have hpos : 0 < P.Ntot := by omega
  constructor
  · intro st hst
    obtain ⟨h1, h2, h3⟩ := single_clone_of_reachableBy P hN hL _ hok st hst
    refine ⟨h1, h2, h3, fun dr hdr => ?_⟩
    have := single_clone_applyEvent P hN hL st h1 dr (hok dr hdr)
    refine ⟨?_, this.1, by rw [this.2.1]; exact h2, by rw [this.2.2]; exact h3⟩
    rw [h1]
    exact isDivisionDeath_single P hN hL dr (hok dr hdr)
  · intro draws hdraws row hrow
    simp only [run, List.mem_cons] at hrow
    rcases hrow with h | h
    · rw [h]
      exact ⟨rfl, rfl, rfl⟩
    · rw [runLoop_eq_map] at h
      obtain ⟨st, hst, rfl⟩ := List.mem_map.mp h
      have hreach := runLoopStates_reachable (ValidDraws P) P draws hdraws (initState P)
        ReachableBy.init st hst
      obtain ⟨h1, h2, h3⟩ := single_clone_of_reachableBy P hN hL _ hok st hreach
      refine ⟨?_, h2, h3⟩
      simp [recordRow, activeClonesCount, h1, hpos]

/-- Claim C19 at a concrete input: under regime B with `L = 0` and three cells,
the row written by a first iteration reports one active clone and no
mutation. -/
theorem no_mutation_channel_witness :
    (∀ dr ∈ [exampleDrawsDivision], ValidDraws exampleParamsNoMutation dr) ∧
    ∀ row ∈ run exampleParamsNoMutation [exampleDrawsDivision],
      row.active_clones_count = 1 ∧ row.cumulative_drivers = 0 ∧
      row.cumulative_passengers = 0 := by
  have hv : ∀ dr ∈ [exampleDrawsDivision], ValidDraws exampleParamsNoMutation dr := by
    intro dr hdr
    rw [List.mem_singleton] at hdr
    subst hdr
    norm_num [ValidDraws, exampleDrawsDivision, exampleParamsNoMutation]
  exact ⟨hv, (no_mutation_channel exampleParamsNoMutation (by decide) rfl).2 _ hv⟩

/-- Claim C20 (bounds on the active-clone count): for `Ntot ≥ 1`, in every
state reachable from the initial state (either regime, cell indices `≥ 1` as
`cell_dist(1, Ntot)` returns them, all other draws arbitrary) the number of
clones with `n > 0` is at least 1 and at most
`min(Ntot, clones.size())`, where
`clones.size() = 1 + cumulative_drivers + cumulative_passengers`; and the
`ActiveClones` value of every row of a run, Row 0 included, lies between 1
and `min(Ntot, 1 + CumulativeDrivers + CumulativePassengers)`. -/
theorem active_count_bounds (P : Params) (hN : 1 ≤ P.Ntot) :
    (∀ st : SimState, ReachableBy (fun dr => 1 ≤ dr.random_cell_pos) P st →
      1 ≤ activeClonesCount st.clones ∧
      (activeClonesCount st.clones : Int) ≤ min P.Ntot (st.clones.length : Int) ∧
      (st.clones.length : Int) = 1 + st.cumulative_drivers + st.cumulative_passengers) ∧
    (∀ draws : List Draws, (∀ dr ∈ draws, 1 ≤ dr.random_cell_pos) →
      ∀ row ∈ run P draws,
        1 ≤ row.active_clones_count ∧
        (row.active_clones_count : Int)
          ≤ min P.Ntot (1 + row.cumulative_drivers + row.cumulative_passengers)) := by
  have key : ∀ st : SimState, ReachableBy (fun dr => 1 ≤ dr.random_cell_pos) P st →
      1 ≤ activeClonesCount st.clones ∧
      (activeClonesCount st.clones : Int) ≤ min P.Ntot (st.clones.length : Int) ∧
      (st.clones.length : Int) = 1 + st.cumulative_drivers + st.cumulative_passengers := by
    intro st hst
    have hnn := nonneg_of_reachableBy P (by omega) _ (fun _ hdr => hdr) st hst
    have hsum := totalPopulation_of_reachableBy _ P st hst
    have hcnt := (counters_of_reachableBy _ P st hst).1
    obtain ⟨c, hc, hcn⟩ := exists_active_of_total_pos st.clones (by omega)
    have h1 := activeClonesCount_pos st.clones c hc hcn
    have h2 := activeClonesCount_le_total st.clones hnn
    have h3 : activeClonesCount st.clones ≤ st.clones.length := List.countP_le_length _
    refine ⟨h1, le_min (by omega) (by exact_mod_cast h3), by omega⟩
  refine ⟨key, ?_⟩
  intro draws hdraws row hrow
  simp only [run, List.mem_cons] at hrow
  rcases hrow with h | h
  · rw [h]
    simp only [initialRow]
    exact ⟨le_refl _, le_min (by push_cast; omega) (by simp)⟩
  · rw [runLoop_eq_map] at h
    obtain ⟨st, hst, rfl⟩ := List.mem_map.mp h
    have hreach := runLoopStates_reachable _ P draws hdraws (initState P)
      ReachableBy.init st hst
    obtain ⟨h1, h2, h3⟩ := key st hreach
    simp only [recordRow]
    rw [← h3]
    exact ⟨h1, h2⟩

/-- Claim C20 at a concrete input: after a first Mutation iteration from
three cells the active-clone count is between 1 and `min(3, clones.size())`. -/
theorem active_count_bounds_witness :
    1 ≤ activeClonesCount
      (iteration exampleParams (initState exampleParams) exampleDrawsMutation).state.clones ∧
    (activeClonesCount
      (iteration exampleParams (initState exampleParams)
        exampleDrawsMutation).state.clones : Int)
      ≤ min exampleParams.Ntot
        ((iteration exampleParams (initState exampleParams)
          exampleDrawsMutation).state.clones.length : Int) := by
  have h := (active_count_bounds exampleParams (by decide)).1 _
    (ReachableBy.step (initState exampleParams) exampleDrawsMutation ReachableBy.init
      (by norm_num [initState, exampleParams]) (by decide))
  exact ⟨h.1, h.2.1⟩

/-! ## Death selection under the two regimes -/

theorem dyingIdx_regimeA (P : Params) (clones : List Clone) (dr : Draws) :
    dyingIdx { P with model_type := ModelType.A } clones dr =
      proportionalSelect P.s P.d clones
        (dr.u_death * totalDivisionPropensity P.s P.d clones) := rfl

theorem dyingIdx_regimeB (P : Params) (clones : List Clone) (dr : Draws) :
    dyingIdx { P with model_type := ModelType.B } clones dr =
      selectDeathB clones dr.random_cell_pos := rfl

theorem selectDeathB_card (clones : List Clone) (Ntot : Int)
    (hnn : ∀ cl ∈ clones, 0 ≤ cl.n) (hsum : totalPopulation clones = Ntot)
    (i : Nat) (cl : Clone) (hi : clones[i]? = some cl) :
    (((Finset.Icc 1 Ntot).filter (fun c => selectDeathB clones c = some i)).card : Int)
        = cl.n := by
  have hlt := lt_length_of_getElem? hi
  have hcongr : (Finset.Icc 1 Ntot).filter (fun c => selectDeathB clones c = some i) =
      (Finset.Icc 1 Ntot).filter (fun c => selectParent clones c = some i) := by
    apply Finset.filter_congr
    intro c hc
    rw [Finset.mem_Icc] at hc
    rw [selectDeathB_eq_selectParent clones hnn c hc.1]
  rw [hcongr, selectParent_filter_eq clones Ntot hnn hsum i hlt, Int.card_Ioc,
    populationBefore_succ clones i cl hi]
  have := nonneg_of_getElem? hnn hi
  rw [Int.toNat_of_nonneg (by omega)]
  ring

theorem isDeathShareB_law (P : Params) (clones : List Clone)
    (hnn : ∀ c ∈ clones, 0 ≤ c.n) (hsum : totalPopulation clones = P.Ntot)
    (i : Nat) (c : Clone) (hi : clones[i]? = some c) :
    IsDeathShareB P clones i ((c.n : ℚ) / (P.Ntot : ℚ)) := by
  intro dr
  have h := selectDeathB_card clones P.Ntot hnn hsum i c hi
  simp only [dyingIdx_regimeB]
  have h' : (((Finset.Icc 1 P.Ntot).filter
      (fun cell => selectDeathB clones cell = some i)).card : ℚ) = (c.n : ℚ) := by
    exact_mod_cast h
  rw [h']

theorem isDeathShareA_law (P : Params) (clones : List Clone)
    (hpos : ∀ c ∈ clones, 0 < c.n → 0 < propensity P.s P.d c)
    (hT : 0 < totalDivisionPropensity P.s P.d clones)
    (hnn : ∀ c ∈ clones, 0 ≤ c.n) (i : Nat) (c : Clone) (hi : clones[i]? = some c) :
    IsDeathShareA P clones i
      (propensity P.s P.d c / totalDivisionPropensity P.s P.d clones) := by
  by_cases hc : 0 < c.n
  · have hp := hpos c (List.getElem?_mem hi) hc
    have hsucc := propensityBefore_succ P.s P.d clones i c hi
    simp only [hc, if_true] at hsucc
    have hle := propensityBefore_le_total P.s P.d clones hpos (i + 1)
    have h0 := propensityBefore_nonneg P.s P.d clones hpos i
    refine ⟨propensityBefore P.s P.d clones i / totalDivisionPropensity P.s P.d clones,
      div_nonneg h0 (le_of_lt hT), div_nonneg (le_of_lt hp) (le_of_lt hT), ?_, ?_⟩
    · rw [← add_div, ← hsucc]
      exact (div_le_one hT).mpr hle
    · intro dr hu0 _
      rw [dyingIdx_regimeA,
        proportionalSelect_iff P.s P.d clones hpos _ (mul_nonneg hu0 (le_of_lt hT)) i,
        ← add_div, div_le_iff₀ hT, lt_div_iff₀ hT, ← hsucc]
      constructor
      · rintro ⟨_, _, _, hlo, hhi⟩
        exact ⟨hlo, hhi⟩
      · rintro ⟨hlo, hhi⟩
        exact ⟨c, hi, hc, hlo, hhi⟩
  · have e : c.n = 0 := by
      have := nonneg_of_getElem? hnn hi
      omega
    have hw : propensity P.s P.d c / totalDivisionPropensity P.s P.d clones = 0 := by
      simp [propensity, e]
    rw [hw]
    refine ⟨0, le_refl _, le_refl _, by norm_num, ?_⟩
    intro dr hu0 _
    constructor
    · intro hsel
      rw [dyingIdx_regimeA] at hsel
      obtain ⟨c', hc', hpos'⟩ := proportionalSelect_active _ _ _ _ _ hsel
      rw [hi] at hc'
      simp only [Option.some.injEq] at hc'
      subst hc'
      exact absurd hpos' hc
    · rintro ⟨h1, h2⟩
      linarith

theorem isDeathShareA_unique (P : Params) (clones : List Clone) (i : Nat) (w w' : ℚ)
    (h : IsDeathShareA P clones i w) (h' : IsDeathShareA P clones i w') : w = w' := by
  obtain ⟨lo, hlo, hw, hhi, hiff⟩ := h
  obtain ⟨lo', hlo', hw', hhi', hiff'⟩ := h'
  have key : ∀ u : ℚ, 0 ≤ u → u < 1 → ((lo ≤ u ∧ u < lo + w) ↔ (lo' ≤ u ∧ u < lo' + w')) := by
    intro u hu0 hu1
    have a := hiff { dt := 0, u_class := 0, u_repro := 0, u_death := u,
                     random_cell_pos := 1, u_type := 0 } hu0 hu1
    have b := hiff' { dt := 0, u_class := 0, u_repro := 0, u_death := u,
                      random_cell_pos := 1, u_type := 0 } hu0 hu1
    exact a.symm.trans b
  by_cases hwz : w = 0
  · by_cases hwz' : w' = 0
    · rw [hwz, hwz']
    · have hpos' : 0 < w' := lt_of_le_of_ne hw' (Ne.symm hwz')
      have := (key lo' hlo' (by linarith)).mpr ⟨le_refl _, by linarith⟩
      linarith [this.1, this.2]
  · have hpos : 0 < w := lt_of_le_of_ne hw (Ne.symm hwz)
    have h1 := (key lo hlo (by linarith)).mp ⟨le_refl _, by linarith⟩
    have hpos' : 0 < w' := by linarith [h1.1, h1.2]
    have h2 := (key lo' hlo' (by linarith)).mpr ⟨le_refl _, by linarith⟩
    have hlo_eq : lo = lo' := le_antisymm h2.1 h1.1
    subst hlo_eq
    rcases lt_trichotomy w w' with hlt | heq | hgt
    · have := (key (lo + w) (by linarith) (by linarith)).mpr ⟨by linarith, by linarith⟩
      linarith [this.2]
    · exact heq
    · have := (key (lo + w') (by linarith) (by linarith)).mp ⟨by linarith, by linarith⟩
      linarith [this.2]

/-- Claim C15 (regime divergence): for `s > -1`, `d < 1` and a registry
with non-negative populations summing to `Ntot ≥ 1`, the death selection
`dyingIdx` of regime A returns clone `i` with probability
`n_i * fitness_i / total_division_propensity` (the length of the interval of
death draws selecting `i`) and that of regime B with probability `n_i / Ntot`
(the fraction of the cell indices selecting `i`); if two active clones have
unequal fitness, then for some clone the probabilities of the two regimes
differ, and if all active clones have equal fitness they agree for every
clone of the registry. -/
theorem regime_divergence (P : Params) (hs : -1 < P.s) (hd : P.d < 1) (clones : List Clone)
    (hnn : ∀ c ∈ clones, 0 ≤ c.n) (hsum : totalPopulation clones = P.Ntot)
    (hN : 1 ≤ P.Ntot) :
    (∀ (i : Nat) (c : Clone), clones[i]? = some c →
      IsDeathShareA P clones i
        (propensity P.s P.d c / totalDivisionPropensity P.s P.d clones) ∧
      IsDeathShareB P clones i ((c.n : ℚ) / (P.Ntot : ℚ))) ∧
    ((∃ (a b : Nat) (ca cb : Clone), clones[a]? = some ca ∧ clones[b]? = some cb ∧
        0 < ca.n ∧ 0 < cb.n ∧ fitness P.s P.d ca ≠ fitness P.s P.d cb) →
      ∃ i : Nat, i < clones.length ∧
        ∀ wA wB : ℚ, IsDeathShareA P clones i wA → IsDeathShareB P clones i wB → wA ≠ wB) ∧
    ((∀ (a b : Nat) (ca cb : Clone), clones[a]? = some ca → clones[b]? = some cb →
        0 < ca.n → 0 < cb.n → fitness P.s P.d ca = fitness P.s P.d cb) →
      ∀ i : Nat, i < clones.length →
        ∀ wA wB : ℚ, IsDeathShareA P clones i wA → IsDeathShareB P clones i wB → wA = wB) := by
  have hpos : ∀ c ∈ clones, 0 < c.n → 0 < propensity P.s P.d c :=
    fun c _ hc => propensity_pos P.s P.d hs hd c hc
  have hN' : (0 : ℚ) < (P.Ntot : ℚ) := by exact_mod_cast (by omega : 0 < P.Ntot)
  obtain ⟨c0, hc0, hc0n⟩ := exists_active_of_total_pos clones (by omega)
  obtain ⟨i0, hi0⟩ := List.mem_iff_getElem?.mp hc0
  have hT := totalDivisionPropensity_pos P.s P.d clones hpos i0 c0 hi0 hc0n
  have laws : ∀ (i : Nat) (c : Clone), clones[i]? = some c →
      IsDeathShareA P clones i
        (propensity P.s P.d c / totalDivisionPropensity P.s P.d clones) ∧
      IsDeathShareB P clones i ((c.n : ℚ) / (P.Ntot : ℚ)) :=
    fun i c hi => ⟨isDeathShareA_law P clones hpos hT hnn i c hi,
      isDeathShareB_law P clones hnn hsum i c hi⟩
  have values : ∀ (i : Nat) (c : Clone), clones[i]? = some c → ∀ wA wB : ℚ,
      IsDeathShareA P clones i wA → IsDeathShareB P clones i wB →
      wA = propensity P.s P.d c / totalDivisionPropensity P.s P.d clones ∧
      wB = (c.n : ℚ) / (P.Ntot : ℚ) := by
    intro i c hi wA wB hA hB
    refine ⟨isDeathShareA_unique P clones i _ _ hA (laws i c hi).1, ?_⟩
    have d0 : Draws := { dt := 0, u_class := 0, u_repro := 0, u_death := 0,
                         random_cell_pos := 1, u_type := 0 }
    rw [← hB d0, ← (laws i c hi).2 d0]
  refine ⟨laws, ?_, ?_⟩
  · rintro ⟨a, b, ca, cb, ha, hb, hca, hcb, hne⟩
    by_contra hall
    push_neg at hall
    have share : ∀ (i : Nat) (c : Clone), clones[i]? = some c →
        propensity P.s P.d c / totalDivisionPropensity P.s P.d clones
          = (c.n : ℚ) / (P.Ntot : ℚ) := by
      intro i c hi
      obtain ⟨wA, wB, hA, hB, heq⟩ := hall i (lt_length_of_getElem? hi)
      obtain ⟨eA, eB⟩ := values i c hi wA wB hA hB
      rw [← eA, ← eB, heq]
    have e1 := fitness_of_equal_share P.s P.d clones P.Ntot hN hT ca hca (share a ca ha)
    have e2 := fitness_of_equal_share P.s P.d clones P.Ntot hN hT cb hcb (share b cb hb)
    exact hne (by rw [e1, e2])
  · intro heq i hi wA wB hA hB
    have hc : clones[i]? = some clones[i] := by simp [hi]
    obtain ⟨eA, eB⟩ := values i clones[i] hc wA wB hA hB
    rw [eA, eB]
    by_cases hcn : 0 < clones[i].n
    · have hf : ∀ c' ∈ clones, 0 < c'.n → fitness P.s P.d c' = fitness P.s P.d clones[i] := by
        intro c' hc' hpos'
        obtain ⟨j, hj⟩ := List.mem_iff_getElem?.mp hc'
        exact heq j i c' clones[i] hj hc hpos' hcn
      rw [totalDivisionPropensity_equal_fitness P.s P.d clones _ hnn hf, hsum]
      have hfpos := fitness_pos P.s P.d hs hd clones[i]
      unfold propensity
      field_simp
      ring
    · have e : clones[i].n = 0 := by
        have := nonneg_of_getElem? hnn hc
        omega
      simp [propensity, e]

/-- Claim C15 at a concrete input: with `s = 1`, `d = 1/2` the active clones
of the registry with populations 2, 0, 1 have fitness 1 and 1/2, and for
some clone the death probabilities of regimes A and B differ. -/
theorem regime_divergence_witness :
    fitness exampleParams.s exampleParams.d { k := 0, l := 0, n := 2 }
      ≠ fitness exampleParams.s exampleParams.d { k := 0, l := 1, n := 1 } ∧
    ∃ i : Nat, i < exampleRegistry.length ∧
      ∀ wA wB : ℚ, IsDeathShareA exampleParams exampleRegistry i wA →
        IsDeathShareB exampleParams exampleRegistry i wB → wA ≠ wB := by
  have hne : fitness exampleParams.s exampleParams.d { k := 0, l := 0, n := 2 }
      ≠ fitness exampleParams.s exampleParams.d { k := 0, l := 1, n := 1 } := by
    norm_num [fitness, exampleParams]
  exact ⟨hne,
    (regime_divergence exampleParams (by norm_num [exampleParams])
      (by norm_num [exampleParams]) exampleRegistry (by decide) (by decide) (by decide)).2.1
      ⟨0, 2, _, _, by decide, by decide, by decide, by decide, hne⟩⟩

/-! ## Underflow of the fitness in double precision -/

theorem parentWalk_extinct_append (ext : List Clone) (c : Clone)
    (hext : ∀ e ∈ ext, e.n = 0) (hc : c.n = 1) (i0 : Nat) :
    parentWalk 1 (ext ++ [c]) i0 0 = some (i0 + ext.length) := by
  induction ext generalizing i0 with
  | nil => simp [parentWalk, hc]
  | cons e ext ih =>
    have he : e.n = 0 := hext e (List.mem_cons_self _ _)
    have ih' := ih (fun e' h => hext e' (List.mem_cons_of_mem _ h)) (i0 + 1)
    have hstep : parentWalk 1 (e :: (ext ++ [c])) i0 0
        = parentWalk 1 (ext ++ [c]) (i0 + 1) 0 := by
      simp [parentWalk, he]
    rw [List.cons_append, hstep, ih']
    simp only [List.length_cons]
    congr 1
    omega

theorem adjN_extinct_append (delta : Int) (ext : List Clone) (c : Clone) :
    adjN delta (ext ++ [c]) ext.length = ext ++ [{ c with n := c.n + delta }] := by
  induction ext with
  | nil => simp [adjN]
  | cons e ext ih => simp [adjN, ih]

theorem activePropensities_extinct_append (s d : ℚ) (ext : List Clone) (c : Clone)
    (hext : ∀ e ∈ ext, e.n = 0) (hc : 0 < c.n) :
    activePropensities s d (ext ++ [c]) = [propensity s d c] := by
  have hnil : ext.filter (fun c => decide (c.n > 0)) = [] := by
    rw [List.filter_eq_nil_iff]
    intro e he
    simp [hext e he]
  simp [activePropensities, List.filter_append, hnil, hc]

theorem extinctChain_length (m : Nat) : (extinctChain m).length = m := by
  simp [extinctChain]

theorem extinctChain_extinct (m : Nat) : ∀ e ∈ extinctChain m, e.n = 0 := by
  intro e he
  obtain ⟨j, _, rfl⟩ := List.mem_map.mp he
  rfl

theorem extinctChain_succ (m : Nat) :
    extinctChain (m + 1) = extinctChain m ++ [{ k := 0, l := (m : Int), n := 0 }] := by
  simp [extinctChain, List.range_succ]

theorem applyEvent_passengerChain (m : Nat) (t : ℚ) :
    applyEvent exampleParamsUnderflow
        { t := t, clones := passengerChain m, cumulative_drivers := 0,
          cumulative_passengers := (m : Int) } exampleDrawsPassenger =
      { t := t, clones := passengerChain (m + 1), cumulative_drivers := 0,
        cumulative_passengers := (m : Int) + 1 } := by
  have hT : totalDivisionPropensity exampleParamsUnderflow.s exampleParamsUnderflow.d
      (passengerChain m) = (1 / 2 : ℚ) ^ m := by
    rw [totalDivisionPropensity_eq, passengerChain,
      activePropensities_extinct_append _ _ _ _ (extinctChain_extinct m) Int.one_pos]
    simp only [propensity, fitness, exampleParamsUnderflow, List.sum_cons, List.sum_nil,
      zpow_natCast]
    norm_num
  have hT1 : (1 / 2 : ℚ) ^ m ≤ 1 := pow_le_one₀ (by norm_num) (by norm_num)
  have hcls : isDivisionDeath exampleParamsUnderflow (passengerChain m) exampleDrawsPassenger
      = false := by
    simp only [isDivisionDeath, hT, decide_eq_false_iff_not, not_lt]
    simp only [exampleDrawsPassenger, exampleParamsUnderflow]
    linarith
  have hsel : selectParent (passengerChain m) exampleDrawsPassenger.random_cell_pos
      = some m := by
    have := parentWalk_extinct_append (extinctChain m) { k := 0, l := (m : Int), n := 1 }
      (extinctChain_extinct m) rfl 0
    rw [extinctChain_length, Nat.zero_add] at this
    exact this
  have hget : (passengerChain m)[m]? = some { k := 0, l := (m : Int), n := 1 } := by
    unfold passengerChain
    rw [List.getElem?_append_right (by rw [extinctChain_length])]
    simp [extinctChain_length]
  have hadj : adjN (-1) (passengerChain m) m =
      extinctChain m ++ [{ k := 0, l := (m : Int), n := 0 }] := by
    have := adjN_extinct_append (-1) (extinctChain m) { k := 0, l := (m : Int), n := 1 }
    rw [extinctChain_length] at this
    exact this
  have hu : ¬ exampleDrawsPassenger.u_type < exampleParamsUnderflow.p := by
    norm_num [exampleDrawsPassenger, exampleParamsUnderflow]
  simp only [applyEvent, hcls, Bool.false_eq_true, if_false, mutationEvent, hsel]
  rw [applyMutation_eq _ _ m _ _ hget]
  simp only [hu, if_false, hadj]
  rw [← extinctChain_succ]
  simp [passengerChain]

theorem reachable_passengerState (m : Nat) (hm : m < 2000) :
    ReachableBy (ValidDraws exampleParamsUnderflow) exampleParamsUnderflow
      (passengerState m) := by
  induction m with
  | zero =>
    have e : passengerState 0 = initState exampleParamsUnderflow := by
      simp [passengerState, passengerChain, extinctChain, initState, exampleParamsUnderflow]
    rw [e]
    exact ReachableBy.init
  | succ m ih =>
    have hprev := ih (by omega)
    have hlt : ((m : ℚ) + 1) < 2000 := by exact_mod_cast hm
    have hvalid : ValidDraws exampleParamsUnderflow exampleDrawsPassenger := by
      norm_num [ValidDraws, exampleDrawsPassenger, exampleParamsUnderflow]
    have hguard : (passengerState m).t < exampleParamsUnderflow.tmax := by
      show (m : ℚ) < 2000
      linarith
    have hstep := ReachableBy.step (passengerState m) exampleDrawsPassenger hprev hguard hvalid
    have hiter : (iteration exampleParamsUnderflow (passengerState m)
        exampleDrawsPassenger).state = passengerState (m + 1) := by
      have hno : ¬ (passengerState m).t + exampleDrawsPassenger.dt
          ≥ exampleParamsUnderflow.tmax := by
        show ¬ ((m : ℚ) + 1 ≥ 2000)
        linarith
      simp only [iteration, hno, if_false, Outcome.state]
      simp only [passengerState]
      rw [applyEvent_passengerChain]
      simp [exampleDrawsPassenger]
    rw [hiter] at hstep
    exact hstep

/-- Claim C18 as stated fails in double precision: with the valid parameters
`Ntot = 1`, `s = 0`, `d = 0.5`, `L = 1`, `p = 0`, the state after 1076
passenger mutations of the only cell is reachable with draws in the ranges
of their distributions; its active clone has `l = 1076`, and
`std::pow(0.5, 1076)` underflows to `0.0`, so the division propensity of an
active clone is `0.0`, not strictly positive. -/
theorem rate_never_degenerate_counterexample :
    (1 ≤ exampleParamsUnderflow.Ntot ∧ -1 < exampleParamsUnderflow.s ∧
      exampleParamsUnderflow.d < 1 ∧ 0 ≤ exampleParamsUnderflow.L) ∧
    ReachableBy (ValidDraws exampleParamsUnderflow) exampleParamsUnderflow
      (passengerState 1076) ∧
    (passengerState 1076).clones[1076]? = some { k := 0, l := 1076, n := 1 } ∧
    propensityDouble exampleParamsUnderflow.s exampleParamsUnderflow.d
      { k := 0, l := 1076, n := 1 } = 0 := by
  refine ⟨by norm_num [exampleParamsUnderflow], reachable_passengerState 1076 (by norm_num),
    ?_, ?_⟩
  · show (passengerChain 1076)[1076]? = _
    unfold passengerChain
    rw [List.getElem?_append_right (by rw [extinctChain_length])]
    simp [extinctChain_length]
  · have h : |((1 : ℚ) - 1 / 2) ^ (1076 : Int)| < underflowBound := by
      unfold underflowBound
      rw [abs_of_nonneg (by positivity)]
      have e : ((1 : ℚ) - 1 / 2) ^ (1076 : Int) = 1 / 2 ^ 1076 := by
        rw [show ((1076 : Int)) = ((1076 : Nat) : Int) by rfl, zpow_natCast]
        norm_num
      rw [e]
      apply one_div_lt_one_div_of_lt (by positivity)
      exact pow_lt_pow_right₀ (by norm_num) (by norm_num)
    simp only [propensityDouble, fitnessDouble, powDouble, exampleParamsUnderflow, h, if_true]
    simp

end Moran
